import Mathlib

/-!
Verification development for the rustogrammer analysis core.

The embedding follows the Rust sources:
* `src/conditions/mod.rs` and `src/conditions/compound.rs`: the `Condition`
  trait (`check`, `evaluate`, `get_cached_value`, `invalidate_cache`), the
  primitive `True`/`False` conditions and the compound `Not`/`And`/`Or`
  conditions.  Conditions live behind `Rc<RefCell<dyn Condition>>`; compounds
  hold `Weak` references to their dependents.  We model the heap of condition
  cells as an association list from cell ids to condition objects; a weak
  reference is a cell id, and a dangling weak reference (failed `upgrade`) is
  an id that is absent from the store.  Mutation of the per-object caches is
  explicit state passing of the store.  Because the dependency graph may in
  principle be cyclic (the source prevents cycles only by construction
  discipline), evaluation is fuel-indexed and returns `none` when fuel runs
  out.
* `src/spectra/summary.rs` and `src/spectra/pgamma.rs`: axis defaulting in
  `Summary::new` / `PGamma::new` and the `increment` rules.  `f64` parameter
  values are only compared and copied by this code (never computed with), so
  they are modelled as rationals.  Histogram filling is modelled as the list
  of fill points, in fill order.
* `src/ring_items/mod.rs`: `RingItem`, its constructors, `add`,
  `add_byte_vec` and `get_bodyheader`.  Byte-level decoding of the native
  endian (little-endian on the target) integers is explicit on byte lists.
-/

namespace Rustogrammer

/-! ### Flattened events

Modelled from the spec: the `FlatEvent` type (component B, `parameters`
module, not part of the analysed sources) is semantically a mapping
`id -> Option f64`; indexing by id returns `none` when the parameter is
absent from the current event.  Values are modelled as rationals. -/

/-- Modelled from the spec: a flattened event, a finite mapping from
parameter ids to values; indexing returns `none` for absent ids. -/
abbrev FlatEvent := List (Nat × ℚ)

/-- Modelled from the spec: `FlatEvent` indexing (`flat[id]`), `none` when
the id is absent. -/
def fget : FlatEvent → Nat → Option ℚ
  | [], _ => none
  | (j, v) :: rest, i => if j = i then some v else fget rest i

/-! ### Conditions: data model

`CondKind` covers the condition implementations present in the sources:
the primitive `True` and `False` (conditions/mod.rs) and the compound
`Not`, `And`, `Or` (conditions/compound.rs).  A compound holds weak
references to its dependents: here, store ids. -/

/-- The shape of a condition object: `True`, `False` (conditions/mod.rs)
or `Not`/`And`/`Or` over weak references to dependents
(conditions/compound.rs), modelled as store ids. -/
inductive CondKind where
  | ctrue : CondKind
  | cfalse : CondKind
  | cnot (dep : Nat) : CondKind
  | cand (deps : List Nat) : CondKind
  | cor (deps : List Nat) : CondKind

deriving instance DecidableEq for CondKind

/-- A condition cell: its kind together with its cache field
(`Not.cache`, `ConditionList.cache`; unused by `True`/`False`). -/
structure CondObj where
  kind : CondKind
  cache : Option Bool

deriving instance DecidableEq for CondObj

/-- The heap of `Rc<RefCell<dyn Condition>>` cells, as an association list
from cell id to condition object.  A weak reference whose id is absent
models a `Weak` whose `upgrade()` returns `None`. -/
abbrev Store := List (Nat × CondObj)

/-- Look a condition cell up in the store (a successful `Weak::upgrade`). -/
def slookup : Store → Nat → Option CondObj
  | [], _ => none
  | (j, o) :: rest, i => if j = i then some o else slookup rest i

/-- Overwrite the cache field of the cell `i` (the `self.cache = ...` /
`self.dependencies.cache = ...` assignments through the `RefCell`). -/
def setCache : Store → Nat → Option Bool → Store
  | [], _, _ => []
  | (j, o) :: rest, i, c =>
    if j = i then (j, CondObj.mk o.kind c) :: setCache rest i c
    else (j, o) :: setCache rest i c

/-- The `get_cached_value` method: the trait default returns `None`
(`True`/`False` do not override it); `Not`, `And` and `Or` return their
cache field. -/
def cachedValue (o : CondObj) : Option Bool :=
  match o.kind with
  | CondKind.ctrue => none
  | CondKind.cfalse => none
  | _ => o.cache

/-! ### Conditions: evaluation

`run` is a fuel-indexed interpreter for the mutually recursive methods:

* `EvalTask.chk i` is `Condition::check` on cell `i` (conditions/mod.rs
  lines 87-93): return the cached value if present, else `evaluate`.
* `EvalTask.evl i` is the `evaluate` implementation of cell `i`:
  `True`/`False` return their constant; `Not::evaluate`
  (compound.rs lines 58-66) upgrades its dependent, checks it and caches
  the negation, or caches and returns `false` on a dangling reference;
  `And::evaluate` (lines 132-153) and `Or::evaluate` (lines 184-200)
  first return any cached value, else run their dependent list and cache
  the result.
* `EvalTask.andL ds` is the `for` loop of `And::evaluate`: left-to-right,
  a dangling dependent or a `false` check short-circuits to `false`.
* `EvalTask.orL ds` is the `for` loop of `Or::evaluate`: left-to-right,
  a dangling dependent is skipped, a `true` check short-circuits to
  `true`.

Fuel decreases on every recursive call; `none` means fuel exhaustion
(which on the cycle-free stores built by the program never happens for
sufficient fuel). -/

/-- A pending computation of the condition interpreter. -/
inductive EvalTask where
  | chk (i : Nat) : EvalTask
  | evl (i : Nat) : EvalTask
  | andL (ds : List Nat) : EvalTask
  | orL (ds : List Nat) : EvalTask

/-- Fuel-indexed interpreter for `check` / `evaluate` and the `And`/`Or`
dependent-list loops, with explicit store passing for the cache updates. -/
def run : Nat → Store → FlatEvent → EvalTask → Option (Bool × Store)
  | 0, _, _, _ => none
  | Nat.succ n, s, e, EvalTask.chk i =>
    match slookup s i with
    | none => none
    | some o =>
      match cachedValue o with
      | some b => some (b, s)
      | none => run n s e (EvalTask.evl i)
  | Nat.succ n, s, e, EvalTask.evl i =>
    match slookup s i with
    | none => none
    | some o =>
      match o.kind with
      | CondKind.ctrue => some (true, s)
      | CondKind.cfalse => some (false, s)
      | CondKind.cnot d =>
        match slookup s d with
        | none => some (false, setCache s i (some false))
        | some _ =>
          match run n s e (EvalTask.chk d) with
          | none => none
          | some (b, s1) => some (!b, setCache s1 i (some (!b)))
      | CondKind.cand ds =>
        match o.cache with
        | some c => some (c, s)
        | none =>
          match run n s e (EvalTask.andL ds) with
          | none => none
          | some (r, s1) => some (r, setCache s1 i (some r))
      | CondKind.cor ds =>
        match o.cache with
        | some c => some (c, s)
        | none =>
          match run n s e (EvalTask.orL ds) with
          | none => none
          | some (r, s1) => some (r, setCache s1 i (some r))
  | Nat.succ n, s, e, EvalTask.andL ds =>
    match ds with
    | [] => some (true, s)
    | d :: rest =>
      match slookup s d with
      | none => some (false, s)
      | some _ =>
        match run n s e (EvalTask.chk d) with
        | none => none
        | some (b, s1) =>
          if b then run n s1 e (EvalTask.andL rest) else some (false, s1)
  | Nat.succ n, s, e, EvalTask.orL ds =>
    match ds with
    | [] => some (false, s)
    | d :: rest =>
      match slookup s d with
      | none => run n s e (EvalTask.orL rest)
      | some _ =>
        match run n s e (EvalTask.chk d) with
        | none => none
        | some (b, s1) =>
          if b then some (true, s1) else run n s1 e (EvalTask.orL rest)

/-- `Condition::check` on cell `i` with the given fuel. -/
def checkC (n : Nat) (s : Store) (e : FlatEvent) (i : Nat) : Option (Bool × Store) :=
  run n s e (EvalTask.chk i)

/-- The `evaluate` method on cell `i` with the given fuel. -/
def evalC (n : Nat) (s : Store) (e : FlatEvent) (i : Nat) : Option (Bool × Store) :=
  run n s e (EvalTask.evl i)

/-- Every cache in the store is invalid (the state after the per-event
`invalidate_cache` sweep of the dispatch loop). -/
def allCachesNone (s : Store) : Prop :=
  ∀ p ∈ s, (Prod.snd p).cache = none

instance (s : Store) : Decidable (allCachesNone s) := by
  unfold allCachesNone; infer_instance

/-! ### Store lemmas -/

/-- The kind of the cell at `j`, `none` when the id is dangling.  Evaluation
only ever mutates cache fields, so this view of the store is invariant. -/
def kindView (s : Store) (j : Nat) : Option CondKind :=
  (slookup s j).map CondObj.kind

theorem kindView_none_iff {s : Store} {j : Nat} :
    kindView s j = none ↔ slookup s j = none := by
  unfold kindView; cases slookup s j <;> simp

theorem kindView_some_iff {s : Store} {j : Nat} {k : CondKind} :
    kindView s j = some k ↔ ∃ o, slookup s j = some o ∧ o.kind = k := by
  unfold kindView; cases slookup s j <;> simp

theorem slookup_setCache (s : Store) (i : Nat) (c : Option Bool) (j : Nat) :
    slookup (setCache s i c) j =
      if j = i then (slookup s j).map (fun o => CondObj.mk o.kind c)
      else slookup s j := by
  induction s with
  | nil => simp [slookup, setCache]
  | cons hd rest ih =>
    obtain ⟨k, o⟩ := hd
    by_cases hki : k = i
    · subst hki
      by_cases hjk : j = k
      · subst hjk
        simp [slookup, setCache]
      · have hkj : ¬ k = j := fun h => hjk h.symm
        simp [slookup, setCache, hjk, hkj, ih]
    · by_cases hjk : j = k
      · subst hjk
        simp [slookup, setCache, hki, fun h => hki h]
      · have hkj : ¬ k = j := fun h => hjk h.symm
        simp [slookup, setCache, hki, hkj, hjk, ih]

theorem kindView_setCache (s : Store) (i : Nat) (c : Option Bool) (j : Nat) :
    kindView (setCache s i c) j = kindView s j := by
  unfold kindView
  rw [slookup_setCache]
  by_cases hj : j = i <;> simp [hj] <;> cases slookup s j <;> rfl

theorem slookup_mem {s : Store} {i : Nat} {o : CondObj} :
    slookup s i = some o → (i, o) ∈ s := by
  induction s with
  | nil => intro h; simp [slookup] at h
  | cons hd rest ih =>
    obtain ⟨k, o0⟩ := hd
    intro h
    by_cases hk : k = i
    · simp [slookup, hk] at h
      simp [hk, h]
    · simp [slookup, hk] at h
      exact List.mem_cons_of_mem _ (ih h)

/-! ### Structure preservation

Evaluation only writes cache fields (through `setCache`), so the set of
live cells and their kinds never changes during a `check`/`evaluate`. -/

theorem run_pres :
    ∀ (n : Nat) (s : Store) (e : FlatEvent) (t : EvalTask) (b : Bool) (s' : Store),
      run n s e t = some (b, s') → ∀ j, kindView s' j = kindView s j := by
  intro n
  induction n with
  | zero => intro s e t b s' h; simp [run] at h
  | succ n ih =>
    intro s e t b s' h j
    cases t with
    | chk i =>
      cases hs : slookup s i with
      | none => simp [run, hs] at h
      | some o =>
        cases hc : cachedValue o with
        | some b0 =>
          simp [run, hs, hc] at h
          rw [← h.2]
        | none =>
          simp only [run, hs, hc] at h
          exact ih s e _ b s' h j
    | evl i =>
      cases hs : slookup s i with
      | none => simp [run, hs] at h
      | some o =>
        cases hk : o.kind with
        | ctrue => simp [run, hs, hk] at h; rw [← h.2]
        | cfalse => simp [run, hs, hk] at h; rw [← h.2]
        | cnot d =>
          cases hd : slookup s d with
          | none =>
            simp [run, hs, hk, hd] at h
            rw [← h.2, kindView_setCache]
          | some o1 =>
            cases hr : run n s e (EvalTask.chk d) with
            | none => simp [run, hs, hk, hd, hr] at h
            | some p =>
              obtain ⟨b1, s1⟩ := p
              simp [run, hs, hk, hd, hr] at h
              rw [← h.2, kindView_setCache]
              exact ih s e _ b1 s1 hr j
        | cand ds =>
          cases hc : o.cache with
          | some c => simp [run, hs, hk, hc] at h; rw [← h.2]
          | none =>
            cases hr : run n s e (EvalTask.andL ds) with
            | none => simp [run, hs, hk, hc, hr] at h
            | some p =>
              obtain ⟨r, s1⟩ := p
              simp [run, hs, hk, hc, hr] at h
              rw [← h.2, kindView_setCache]
              exact ih s e _ r s1 hr j
        | cor ds =>
          cases hc : o.cache with
          | some c => simp [run, hs, hk, hc] at h; rw [← h.2]
          | none =>
            cases hr : run n s e (EvalTask.orL ds) with
            | none => simp [run, hs, hk, hc, hr] at h
            | some p =>
              obtain ⟨r, s1⟩ := p
              simp [run, hs, hk, hc, hr] at h
              rw [← h.2, kindView_setCache]
              exact ih s e _ r s1 hr j
    | andL ds =>
      cases ds with
      | nil => simp [run] at h; rw [← h.2]
      | cons d rest =>
        cases hd : slookup s d with
        | none => simp [run, hd] at h; rw [← h.2]
        | some o1 =>
          cases hr : run n s e (EvalTask.chk d) with
          | none => simp [run, hd, hr] at h
          | some p =>
            obtain ⟨b1, s1⟩ := p
            have h1 := ih s e _ b1 s1 hr j
            cases b1 with
            | true =>
              simp [run, hd, hr] at h
              exact (ih s1 e _ b s' h j).trans h1
            | false =>
              simp [run, hd, hr] at h
              rw [← h.2]; exact h1
    | orL ds =>
      cases ds with
      | nil => simp [run] at h; rw [← h.2]
      | cons d rest =>
        cases hd : slookup s d with
        | none =>
          simp only [run, hd] at h
          exact ih s e _ b s' h j
        | some o1 =>
          cases hr : run n s e (EvalTask.chk d) with
          | none => simp [run, hd, hr] at h
          | some p =>
            obtain ⟨b1, s1⟩ := p
            have h1 := ih s e _ b1 s1 hr j
            cases b1 with
            | true =>
              simp [run, hd, hr] at h
              rw [← h.2]; exact h1
            | false =>
              simp [run, hd, hr] at h
              exact (ih s1 e _ b s' h j).trans h1

/-! ### State after a `check`

After a successful `check` of cell `i`, either the cell is a constant
`True`/`False` (whose result the returned boolean matches), or its cache
holds the returned boolean: `Not::evaluate`, `And::evaluate` and
`Or::evaluate` all store their result before returning. -/

theorem cachedValue_mk_cnot (d : Nat) (c : Option Bool) :
    cachedValue (CondObj.mk (CondKind.cnot d) c) = c := rfl

theorem cachedValue_mk_cand (ds : List Nat) (c : Option Bool) :
    cachedValue (CondObj.mk (CondKind.cand ds) c) = c := rfl

theorem cachedValue_mk_cor (ds : List Nat) (c : Option Bool) :
    cachedValue (CondObj.mk (CondKind.cor ds) c) = c := rfl

theorem cachedValue_of_kind_cand {o : CondObj} {ds : List Nat}
    (h : o.kind = CondKind.cand ds) : cachedValue o = o.cache := by
  unfold cachedValue; rw [h]

theorem cachedValue_of_kind_cor {o : CondObj} {ds : List Nat}
    (h : o.kind = CondKind.cor ds) : cachedValue o = o.cache := by
  unfold cachedValue; rw [h]

theorem slookup_setCache_self {s : Store} {i : Nat} {o : CondObj}
    (hs : slookup s i = some o) (c : Option Bool) :
    slookup (setCache s i c) i = some (CondObj.mk o.kind c) := by
  rw [slookup_setCache, if_pos rfl, hs]; rfl

/-- The possible cell states at `i` after `check`/`evaluate` of `i`
returned `b`: a constant cell matching `b`, or a cache holding `b`. -/
def checkedPost (s' : Store) (i : Nat) (b : Bool) : Prop :=
  ∃ o, slookup s' i = some o ∧
    ((o.kind = CondKind.ctrue ∧ b = true) ∨
     (o.kind = CondKind.cfalse ∧ b = false) ∨
     cachedValue o = some b)

theorem run_post_evl :
    ∀ (n : Nat) (s : Store) (e : FlatEvent) (i : Nat) (b : Bool) (s' : Store),
      run n s e (EvalTask.evl i) = some (b, s') → checkedPost s' i b := by
  intro n s e i b s' h
  cases n with
  | zero => simp [run] at h
  | succ n =>
    cases hs : slookup s i with
    | none => simp [run, hs] at h
    | some o =>
      cases hk : o.kind with
      | ctrue =>
        simp [run, hs, hk] at h
        obtain ⟨rfl, rfl⟩ := h
        exact ⟨o, hs, Or.inl ⟨hk, rfl⟩⟩
      | cfalse =>
        simp [run, hs, hk] at h
        obtain ⟨rfl, rfl⟩ := h
        exact ⟨o, hs, Or.inr (Or.inl ⟨hk, rfl⟩)⟩
      | cnot d =>
        cases hd : slookup s d with
        | none =>
          simp [run, hs, hk, hd] at h
          obtain ⟨rfl, rfl⟩ := h
          exact ⟨CondObj.mk o.kind (some false),
            slookup_setCache_self hs (some false),
            Or.inr (Or.inr (by rw [hk, cachedValue_mk_cnot]))⟩
        | some o1 =>
          cases hr : run n s e (EvalTask.chk d) with
          | none => simp [run, hs, hk, hd, hr] at h
          | some p =>
            obtain ⟨b1, s1⟩ := p
            have hkv : kindView s1 i = kindView s i := run_pres n s e _ b1 s1 hr i
            have hsome : kindView s i = some o.kind := by
              unfold kindView; rw [hs]; rfl
            obtain ⟨o2, hs2, hk2⟩ := kindView_some_iff.mp (hkv.trans hsome)
            simp [run, hs, hk, hd, hr] at h
            obtain ⟨rfl, rfl⟩ := h
            refine ⟨_, slookup_setCache_self hs2 _, Or.inr (Or.inr ?_)⟩
            simp [hk2, hk, cachedValue]
      | cand ds =>
        cases hc : o.cache with
        | some c =>
          simp [run, hs, hk, hc] at h
          obtain ⟨rfl, rfl⟩ := h
          exact ⟨o, hs, Or.inr (Or.inr (by rw [cachedValue_of_kind_cand hk, hc]))⟩
        | none =>
          cases hr : run n s e (EvalTask.andL ds) with
          | none => simp [run, hs, hk, hc, hr] at h
          | some p =>
            obtain ⟨r, s1⟩ := p
            have hkv : kindView s1 i = kindView s i := run_pres n s e _ r s1 hr i
            have hsome : kindView s i = some o.kind := by
              unfold kindView; rw [hs]; rfl
            obtain ⟨o2, hs2, hk2⟩ := kindView_some_iff.mp (hkv.trans hsome)
            simp [run, hs, hk, hc, hr] at h
            obtain ⟨rfl, rfl⟩ := h
            refine ⟨_, slookup_setCache_self hs2 _, Or.inr (Or.inr ?_)⟩
            simp [hk2, hk, cachedValue]
      | cor ds =>
        cases hc : o.cache with
        | some c =>
          simp [run, hs, hk, hc] at h
          obtain ⟨rfl, rfl⟩ := h
          exact ⟨o, hs, Or.inr (Or.inr (by rw [cachedValue_of_kind_cor hk, hc]))⟩
        | none =>
          cases hr : run n s e (EvalTask.orL ds) with
          | none => simp [run, hs, hk, hc, hr] at h
          | some p =>
            obtain ⟨r, s1⟩ := p
            have hkv : kindView s1 i = kindView s i := run_pres n s e _ r s1 hr i
            have hsome : kindView s i = some o.kind := by
              unfold kindView; rw [hs]; rfl
            obtain ⟨o2, hs2, hk2⟩ := kindView_some_iff.mp (hkv.trans hsome)
            simp [run, hs, hk, hc, hr] at h
            obtain ⟨rfl, rfl⟩ := h
            refine ⟨_, slookup_setCache_self hs2 _, Or.inr (Or.inr ?_)⟩
            simp [hk2, hk, cachedValue]

theorem run_post_chk :
    ∀ (n : Nat) (s : Store) (e : FlatEvent) (i : Nat) (b : Bool) (s' : Store),
      run n s e (EvalTask.chk i) = some (b, s') → checkedPost s' i b := by
  intro n s e i b s' h
  cases n with
  | zero => simp [run] at h
  | succ n =>
    cases hs : slookup s i with
    | none => simp [run, hs] at h
    | some o =>
      cases hc : cachedValue o with
      | some b0 =>
        simp [run, hs, hc] at h
        obtain ⟨rfl, rfl⟩ := h
        exact ⟨o, hs, Or.inr (Or.inr hc)⟩
      | none =>
        simp only [run, hs, hc] at h
        exact run_post_evl n s e i b s' h

/-- Re-checking a cell in a post-`check` state returns the same boolean and
leaves the store unchanged. -/
theorem recheck_of_post {s' : Store} {i : Nat} {b : Bool} {e : FlatEvent}
    (h : checkedPost s' i b) :
    ∀ m, run (m + 2) s' e (EvalTask.chk i) = some (b, s') := by
  intro m
  obtain ⟨o, hs, hcase⟩ := h
  rcases hcase with ⟨hk, hb⟩ | ⟨hk, hb⟩ | hcv
  · have hcv : cachedValue o = none := by unfold cachedValue; rw [hk]
    show run (Nat.succ (m + 1)) s' e (EvalTask.chk i) = some (b, s')
    simp [run, hs, hcv, hk, hb]
  · have hcv : cachedValue o = none := by unfold cachedValue; rw [hk]
    show run (Nat.succ (m + 1)) s' e (EvalTask.chk i) = some (b, s')
    simp [run, hs, hcv, hk, hb]
  · show run (Nat.succ (m + 1)) s' e (EvalTask.chk i) = some (b, s')
    simp [run, hs, hcv]

/-! ### Preservation of valid caches

During an event, evaluation only writes a cache that was invalid (every
`setCache` performed under a `check` happens on a cell whose
`get_cached_value` returned `None`), so a cell whose cache is already
valid keeps both its kind and its cached value across any further
`check` calls. -/

/-- Between two stores: every cell with a valid cache keeps its kind and
its cached value. -/
def cachePres (s s' : Store) : Prop :=
  ∀ j oj c, slookup s j = some oj → cachedValue oj = some c →
    ∃ oj', slookup s' j = some oj' ∧ oj'.kind = oj.kind ∧ cachedValue oj' = some c

theorem cachePres_refl (s : Store) : cachePres s s :=
  fun _ oj _ h hc => ⟨oj, h, rfl, hc⟩

theorem cachePres_trans {s1 s2 s3 : Store}
    (h12 : cachePres s1 s2) (h23 : cachePres s2 s3) : cachePres s1 s3 := by
  intro j oj c h hc
  obtain ⟨o2, h2, hk2, hc2⟩ := h12 j oj c h hc
  obtain ⟨o3, h3, hk3, hc3⟩ := h23 j o2 c h2 hc2
  exact ⟨o3, h3, hk3.trans hk2, hc3⟩

/-- Writing the cache of a cell whose cache was invalid preserves every
valid cache, relative to any prior cache-preserving evolution. -/
theorem cachePres_step {s s1 : Store} {i : Nat} {o : CondObj}
    (hs : slookup s i = some o) (hcnone : cachedValue o = none)
    (hp1 : cachePres s s1) (c : Option Bool) :
    cachePres s (setCache s1 i c) := by
  intro j oj c0 hj hc
  by_cases hji : j = i
  · subst hji
    rw [hs] at hj
    injection hj with hj
    rw [← hj, hcnone] at hc
    exact absurd hc (by simp)
  · obtain ⟨o2, h2, hk2, hc2⟩ := hp1 j oj c0 hj hc
    exact ⟨o2, by rw [slookup_setCache, if_neg hji]; exact h2, hk2, hc2⟩

theorem run_cache_pres :
    ∀ (n : Nat) (s : Store) (e : FlatEvent) (t : EvalTask) (b : Bool) (s' : Store),
      run n s e t = some (b, s') →
      (∀ i, t = EvalTask.evl i → ∀ o, slookup s i = some o → cachedValue o = none) →
      cachePres s s' := by
  intro n
  induction n with
  | zero => intro s e t b s' h _; simp [run] at h
  | succ n ih =>
    intro s e t b s' h hside
    cases t with
    | chk i =>
      cases hs : slookup s i with
      | none => simp [run, hs] at h
      | some o =>
        cases hc : cachedValue o with
        | some b0 =>
          simp [run, hs, hc] at h
          rw [← h.2]; exact cachePres_refl s
        | none =>
          simp only [run, hs, hc] at h
          refine ih s e _ b s' h ?_
          intro i' hi' o' hs'
          injection hi' with hi'
          rw [← hi'] at hs'
          rw [hs] at hs'
          injection hs' with hs'
          rw [← hs']; exact hc
    | evl i =>
      cases hs : slookup s i with
      | none => simp [run, hs] at h
      | some o =>
        have hcnone : cachedValue o = none := hside i rfl o hs
        cases hk : o.kind with
        | ctrue => simp [run, hs, hk] at h; rw [← h.2]; exact cachePres_refl s
        | cfalse => simp [run, hs, hk] at h; rw [← h.2]; exact cachePres_refl s
        | cnot d =>
          cases hd : slookup s d with
          | none =>
            simp [run, hs, hk, hd] at h
            rw [← h.2]
            exact cachePres_step hs hcnone (cachePres_refl s) _
          | some o1 =>
            cases hr : run n s e (EvalTask.chk d) with
            | none => simp [run, hs, hk, hd, hr] at h
            | some p =>
              obtain ⟨b1, s1⟩ := p
              have hp1 : cachePres s s1 := ih s e _ b1 s1 hr (fun _ hh => nomatch hh)
              simp [run, hs, hk, hd, hr] at h
              rw [← h.2]
              exact cachePres_step hs hcnone hp1 _
        | cand ds =>
          cases hc : o.cache with
          | some c =>
            simp [run, hs, hk, hc] at h
            rw [← h.2]; exact cachePres_refl s
          | none =>
            cases hr : run n s e (EvalTask.andL ds) with
            | none => simp [run, hs, hk, hc, hr] at h
            | some p =>
              obtain ⟨r, s1⟩ := p
              have hp1 : cachePres s s1 := ih s e _ r s1 hr (fun _ hh => nomatch hh)
              simp [run, hs, hk, hc, hr] at h
              rw [← h.2]
              exact cachePres_step hs hcnone hp1 _
        | cor ds =>
          cases hc : o.cache with
          | some c =>
            simp [run, hs, hk, hc] at h
            rw [← h.2]; exact cachePres_refl s
          | none =>
            cases hr : run n s e (EvalTask.orL ds) with
            | none => simp [run, hs, hk, hc, hr] at h
            | some p =>
              obtain ⟨r, s1⟩ := p
              have hp1 : cachePres s s1 := ih s e _ r s1 hr (fun _ hh => nomatch hh)
              simp [run, hs, hk, hc, hr] at h
              rw [← h.2]
              exact cachePres_step hs hcnone hp1 _
    | andL ds =>
      cases ds with
      | nil => simp [run] at h; rw [← h.2]; exact cachePres_refl s
      | cons d rest =>
        cases hd : slookup s d with
        | none => simp [run, hd] at h; rw [← h.2]; exact cachePres_refl s
        | some o1 =>
          cases hr : run n s e (EvalTask.chk d) with
          | none => simp [run, hd, hr] at h
          | some p =>
            obtain ⟨b1, s1⟩ := p
            have hp1 : cachePres s s1 := ih s e _ b1 s1 hr (fun _ hh => nomatch hh)
            cases b1 with
            | true =>
              simp [run, hd, hr] at h
              have hp2 : cachePres s1 s' := ih s1 e _ b s' h (fun _ hh => nomatch hh)
              exact cachePres_trans hp1 hp2
            | false =>
              simp [run, hd, hr] at h
              rw [← h.2]; exact hp1
    | orL ds =>
      cases ds with
      | nil => simp [run] at h; rw [← h.2]; exact cachePres_refl s
      | cons d rest =>
        cases hd : slookup s d with
        | none =>
          simp only [run, hd] at h
          exact ih s e _ b s' h (fun _ hh => nomatch hh)
        | some o1 =>
          cases hr : run n s e (EvalTask.chk d) with
          | none => simp [run, hd, hr] at h
          | some p =>
            obtain ⟨b1, s1⟩ := p
            have hp1 : cachePres s s1 := ih s e _ b1 s1 hr (fun _ hh => nomatch hh)
            cases b1 with
            | true =>
              simp [run, hd, hr] at h
              rw [← h.2]; exact hp1
            | false =>
              simp [run, hd, hr] at h
              have hp2 : cachePres s1 s' := ih s1 e _ b s' h (fun _ hh => nomatch hh)
              exact cachePres_trans hp1 hp2

/-! ### Sequences of checks within one event

`runSeq` models an arbitrary sequence of further `check` calls (each with
its own fuel) on arbitrary conditions, with no intervening
`invalidate_cache`: the situation of many spectra consulting shared gates
while one event is processed. -/

/-- Perform a sequence of `check` calls, threading the store. -/
def runSeq : Store → FlatEvent → List (Nat × Nat) → Option Store
  | s, _, [] => some s
  | s, e, (fuel, i) :: rest =>
    match run fuel s e (EvalTask.chk i) with
    | none => none
    | some (_, s1) => runSeq s1 e rest

theorem runSeq_pres :
    ∀ (seq : List (Nat × Nat)) (s : Store) (e : FlatEvent) (s2 : Store),
      runSeq s e seq = some s2 → ∀ j, kindView s2 j = kindView s j := by
  intro seq
  induction seq with
  | nil => intro s e s2 h j; simp [runSeq] at h; rw [← h]
  | cons hd rest ih =>
    intro s e s2 h j
    obtain ⟨fuel, i⟩ := hd
    cases hr : run fuel s e (EvalTask.chk i) with
    | none => simp [runSeq, hr] at h
    | some p =>
      obtain ⟨b1, s1⟩ := p
      simp only [runSeq, hr] at h
      exact (ih s1 e s2 h j).trans (run_pres fuel s e _ b1 s1 hr j)

theorem runSeq_cache_pres :
    ∀ (seq : List (Nat × Nat)) (s : Store) (e : FlatEvent) (s2 : Store),
      runSeq s e seq = some s2 → cachePres s s2 := by
  intro seq
  induction seq with
  | nil => intro s e s2 h; simp [runSeq] at h; rw [← h]; exact cachePres_refl s
  | cons hd rest ih =>
    intro s e s2 h
    obtain ⟨fuel, i⟩ := hd
    cases hr : run fuel s e (EvalTask.chk i) with
    | none => simp [runSeq, hr] at h
    | some p =>
      obtain ⟨b1, s1⟩ := p
      simp only [runSeq, hr] at h
      exact cachePres_trans
        (run_cache_pres fuel s e _ b1 s1 hr (fun _ hh => nomatch hh))
        (ih s1 e s2 h)

/-- Claim C5.  Within a single event (no `invalidate_cache` in between),
once `check` on a condition has returned a value, any later `check` on
that condition returns the same value, whatever other `check` calls have
run in between: caching conditions return the value stored by the first
evaluation, and the constant `True`/`False` conditions are constant. -/
theorem c5_check_stable_within_event :
    ∀ (n : Nat) (s : Store) (e : FlatEvent) (i : Nat) (b : Bool) (s1 : Store),
      checkC n s e i = some (b, s1) →
      ∀ (seq : List (Nat × Nat)) (s2 : Store), runSeq s1 e seq = some s2 →
      ∀ m, checkC (m + 2) s2 e i = some (b, s2) := by
  intro n s e i b s1 h seq s2 hseq m
  have hpost : checkedPost s1 i b := run_post_chk n s e i b s1 h
  obtain ⟨o, hs1, hcase⟩ := hpost
  rcases hcase with ⟨hk, hb⟩ | ⟨hk, hb⟩ | hcv
  · -- constant True cell: its kind is preserved by the later checks
    have hkv : kindView s2 i = kindView s1 i := runSeq_pres seq s1 e s2 hseq i
    have h1 : kindView s1 i = some o.kind := by unfold kindView; rw [hs1]; rfl
    obtain ⟨o2, hs2, hk2⟩ := kindView_some_iff.mp (hkv.trans h1)
    exact recheck_of_post ⟨o2, hs2, Or.inl ⟨hk2.trans hk, hb⟩⟩ m
  · have hkv : kindView s2 i = kindView s1 i := runSeq_pres seq s1 e s2 hseq i
    have h1 : kindView s1 i = some o.kind := by unfold kindView; rw [hs1]; rfl
    obtain ⟨o2, hs2, hk2⟩ := kindView_some_iff.mp (hkv.trans h1)
    exact recheck_of_post ⟨o2, hs2, Or.inr (Or.inl ⟨hk2.trans hk, hb⟩)⟩ m
  · -- cached cell: the valid cache is preserved by the later checks
    obtain ⟨o2, hs2, _, hc2⟩ := runSeq_cache_pres seq s1 e s2 hseq i o b hs1 hcv
    exact recheck_of_post ⟨o2, hs2, Or.inr (Or.inr hc2)⟩ m

/-- A two-cell example: cell 0 is `Not` of cell 1 (`True`). -/
def exNotStore : Store :=
  [(0, CondObj.mk (CondKind.cnot 1) none), (1, CondObj.mk CondKind.ctrue none)]

/-- The example store after the first `check` of cell 0 cached `false`. -/
def exNotStoreAfter : Store :=
  [(0, CondObj.mk (CondKind.cnot 1) (some false)), (1, CondObj.mk CondKind.ctrue none)]

/-- Witness for C5: after checking the `Not` condition once (result
`false`) and then checking condition 1 in between, re-checking the `Not`
condition still returns `false` and leaves the store unchanged. -/
theorem c5_witness : checkC 5 exNotStoreAfter [] 0 = some (false, exNotStoreAfter) :=
  c5_check_stable_within_event 10 exNotStore [] 0 false exNotStoreAfter (by rfl)
    [(10, 1)] exNotStoreAfter (by rfl) 3

/-- Claim C9.  An `And` with an empty dependency list evaluates (and hence
checks) to `true`, an `Or` with an empty dependency list to `false`: the
loop bodies never run, leaving the initial `result` values of
`And::evaluate` (`true`) and `Or::evaluate` (`false`). -/
theorem c9_empty_compound :
    ∀ (n : Nat) (s : Store) (e : FlatEvent) (i : Nat),
      (slookup s i = some (CondObj.mk (CondKind.cand []) none) →
        checkC (n + 3) s e i = some (true, setCache s i (some true))) ∧
      (slookup s i = some (CondObj.mk (CondKind.cor []) none) →
        checkC (n + 3) s e i = some (false, setCache s i (some false))) := by
  intro n s e i
  constructor
  · intro hs
    show run (Nat.succ (Nat.succ (Nat.succ n))) s e (EvalTask.chk i) =
      some (true, setCache s i (some true))
    simp [run, hs, cachedValue]
  · intro hs
    show run (Nat.succ (Nat.succ (Nat.succ n))) s e (EvalTask.chk i) =
      some (false, setCache s i (some false))
    simp [run, hs, cachedValue]

/-- Witness for C9 (And half): with the single cell `0 = And []`,
checking returns `true` and caches it. -/
theorem c9_witness :
    checkC 3 [(0, CondObj.mk (CondKind.cand []) none)] [] 0 =
        some (true, [(0, CondObj.mk (CondKind.cand []) (some true))]) ∧
    checkC 3 [(0, CondObj.mk (CondKind.cor []) none)] [] 0 =
        some (false, [(0, CondObj.mk (CondKind.cor []) (some false))]) :=
  ⟨(c9_empty_compound 0 [(0, CondObj.mk (CondKind.cand []) none)] [] 0).1 (by rfl),
   (c9_empty_compound 0 [(0, CondObj.mk (CondKind.cor []) none)] [] 0).2 (by rfl)⟩

/-! ### Pure denotation of conditions

`den` is the cache-free boolean meaning of a condition over the current
store: the boolean formula of the spec (negation for `Not`, conjunction
for `And`, disjunction for `Or`), with the dangling-weak rule (a dangling
`Not` dependent makes the `Not` false, a dangling `And` member makes the
`And` false, a dangling `Or` member is skipped).  It never reads or
writes caches, so it is invariant along an evaluation.  It is the yard
stick against which the stateful interpreter is proved sound. -/

/-- A pending computation of the pure denotation. -/
inductive DenTask where
  | one (i : Nat) : DenTask
  | conj (ds : List Nat) : DenTask
  | disj (ds : List Nat) : DenTask

/-- Fuel-indexed pure denotation of conditions. -/
def den : Nat → Store → FlatEvent → DenTask → Option Bool
  | 0, _, _, _ => none
  | Nat.succ n, s, e, DenTask.one i =>
    match slookup s i with
    | none => none
    | some o =>
      match o.kind with
      | CondKind.ctrue => some true
      | CondKind.cfalse => some false
      | CondKind.cnot d =>
        match slookup s d with
        | none => some false
        | some _ => (den n s e (DenTask.one d)).map (fun b => !b)
      | CondKind.cand ds => den n s e (DenTask.conj ds)
      | CondKind.cor ds => den n s e (DenTask.disj ds)
  | Nat.succ n, s, e, DenTask.conj ds =>
    match ds with
    | [] => some true
    | d :: rest =>
      match slookup s d with
      | none => some false
      | some _ =>
        match den n s e (DenTask.one d) with
        | none => none
        | some b => if b then den n s e (DenTask.conj rest) else some false
  | Nat.succ n, s, e, DenTask.disj ds =>
    match ds with
    | [] => some false
    | d :: rest =>
      match slookup s d with
      | none => den n s e (DenTask.disj rest)
      | some _ =>
        match den n s e (DenTask.one d) with
        | none => none
        | some b => if b then some true else den n s e (DenTask.disj rest)

theorem den_one_ctrue {n : Nat} {s : Store} {e : FlatEvent} {i : Nat} {o : CondObj}
    (hs : slookup s i = some o) (hk : o.kind = CondKind.ctrue) :
    den (n + 1) s e (DenTask.one i) = some true := by
  simp only [den, hs, hk]

theorem den_one_cfalse {n : Nat} {s : Store} {e : FlatEvent} {i : Nat} {o : CondObj}
    (hs : slookup s i = some o) (hk : o.kind = CondKind.cfalse) :
    den (n + 1) s e (DenTask.one i) = some false := by
  simp only [den, hs, hk]

theorem den_one_cnot_dangling {n : Nat} {s : Store} {e : FlatEvent} {i d : Nat}
    {o : CondObj} (hs : slookup s i = some o) (hk : o.kind = CondKind.cnot d)
    (hd : slookup s d = none) :
    den (n + 1) s e (DenTask.one i) = some false := by
  simp only [den, hs, hk, hd]

theorem den_one_cnot {n : Nat} {s : Store} {e : FlatEvent} {i d : Nat}
    {o o1 : CondObj} (hs : slookup s i = some o) (hk : o.kind = CondKind.cnot d)
    (hd : slookup s d = some o1) :
    den (n + 1) s e (DenTask.one i) =
      (den n s e (DenTask.one d)).map (fun b => !b) := by
  simp only [den, hs, hk, hd]

theorem den_one_cand {n : Nat} {s : Store} {e : FlatEvent} {i : Nat}
    {o : CondObj} {ds : List Nat} (hs : slookup s i = some o)
    (hk : o.kind = CondKind.cand ds) :
    den (n + 1) s e (DenTask.one i) = den n s e (DenTask.conj ds) := by
  simp only [den, hs, hk]

theorem den_one_cor {n : Nat} {s : Store} {e : FlatEvent} {i : Nat}
    {o : CondObj} {ds : List Nat} (hs : slookup s i = some o)
    (hk : o.kind = CondKind.cor ds) :
    den (n + 1) s e (DenTask.one i) = den n s e (DenTask.disj ds) := by
  simp only [den, hs, hk]

theorem den_conj_nil {n : Nat} {s : Store} {e : FlatEvent} :
    den (n + 1) s e (DenTask.conj []) = some true := by
  simp only [den]

theorem den_conj_dangling {n : Nat} {s : Store} {e : FlatEvent} {d : Nat}
    {rest : List Nat} (hd : slookup s d = none) :
    den (n + 1) s e (DenTask.conj (d :: rest)) = some false := by
  simp only [den, hd]

theorem den_conj_cons {n : Nat} {s : Store} {e : FlatEvent} {d : Nat}
    {rest : List Nat} {o1 : CondObj} {b1 : Bool} (hd : slookup s d = some o1)
    (hr : den n s e (DenTask.one d) = some b1) :
    den (n + 1) s e (DenTask.conj (d :: rest)) =
      if b1 then den n s e (DenTask.conj rest) else some false := by
  simp only [den, hd, hr]

theorem den_disj_nil {n : Nat} {s : Store} {e : FlatEvent} :
    den (n + 1) s e (DenTask.disj []) = some false := by
  simp only [den]

theorem den_disj_dangling {n : Nat} {s : Store} {e : FlatEvent} {d : Nat}
    {rest : List Nat} (hd : slookup s d = none) :
    den (n + 1) s e (DenTask.disj (d :: rest)) = den n s e (DenTask.disj rest) := by
  simp only [den, hd]

theorem den_disj_cons {n : Nat} {s : Store} {e : FlatEvent} {d : Nat}
    {rest : List Nat} {o1 : CondObj} {b1 : Bool} (hd : slookup s d = some o1)
    (hr : den n s e (DenTask.one d) = some b1) :
    den (n + 1) s e (DenTask.disj (d :: rest)) =
      if b1 then some true else den n s e (DenTask.disj rest) := by
  simp only [den, hd, hr]

theorem den_one_none {n : Nat} {s : Store} {e : FlatEvent} {i : Nat}
    (hs : slookup s i = none) : den (n + 1) s e (DenTask.one i) = none := by
  simp only [den, hs]

theorem den_conj_cons_true {n : Nat} {s : Store} {e : FlatEvent} {d : Nat}
    {rest : List Nat} {o1 : CondObj} (hd : slookup s d = some o1)
    (hr : den n s e (DenTask.one d) = some true) :
    den (n + 1) s e (DenTask.conj (d :: rest)) = den n s e (DenTask.conj rest) := by
  simp [den, hd, hr]

theorem den_conj_cons_false {n : Nat} {s : Store} {e : FlatEvent} {d : Nat}
    {rest : List Nat} {o1 : CondObj} (hd : slookup s d = some o1)
    (hr : den n s e (DenTask.one d) = some false) :
    den (n + 1) s e (DenTask.conj (d :: rest)) = some false := by
  simp [den, hd, hr]

theorem den_disj_cons_true {n : Nat} {s : Store} {e : FlatEvent} {d : Nat}
    {rest : List Nat} {o1 : CondObj} (hd : slookup s d = some o1)
    (hr : den n s e (DenTask.one d) = some true) :
    den (n + 1) s e (DenTask.disj (d :: rest)) = some true := by
  simp [den, hd, hr]

theorem den_conj_cons_stuck {n : Nat} {s : Store} {e : FlatEvent} {d : Nat}
    {rest : List Nat} {o1 : CondObj} (hd : slookup s d = some o1)
    (hr : den n s e (DenTask.one d) = none) :
    den (n + 1) s e (DenTask.conj (d :: rest)) = none := by
  simp only [den, hd, hr]

theorem den_disj_cons_stuck {n : Nat} {s : Store} {e : FlatEvent} {d : Nat}
    {rest : List Nat} {o1 : CondObj} (hd : slookup s d = some o1)
    (hr : den n s e (DenTask.one d) = none) :
    den (n + 1) s e (DenTask.disj (d :: rest)) = none := by
  simp only [den, hd, hr]

theorem den_disj_cons_false {n : Nat} {s : Store} {e : FlatEvent} {d : Nat}
    {rest : List Nat} {o1 : CondObj} (hd : slookup s d = some o1)
    (hr : den n s e (DenTask.one d) = some false) :
    den (n + 1) s e (DenTask.disj (d :: rest)) = den n s e (DenTask.disj rest) := by
  simp [den, hd, hr]

theorem den_mono :
    ∀ (n : Nat) (s : Store) (e : FlatEvent) (t : DenTask) (b : Bool),
      den n s e t = some b → den (n + 1) s e t = some b := by
  intro n
  induction n with
  | zero => intro s e t b h; simp [den] at h
  | succ n ih =>
    intro s e t b h
    cases t with
    | one i =>
      cases hs : slookup s i with
      | none => rw [den_one_none hs] at h; exact absurd h (by simp)
      | some o =>
        cases hk : o.kind with
        | ctrue => rw [den_one_ctrue hs hk] at h; rw [den_one_ctrue hs hk]; exact h
        | cfalse => rw [den_one_cfalse hs hk] at h; rw [den_one_cfalse hs hk]; exact h
        | cnot d =>
          cases hd : slookup s d with
          | none =>
            rw [den_one_cnot_dangling hs hk hd] at h
            rw [den_one_cnot_dangling hs hk hd]; exact h
          | some o1 =>
            rw [den_one_cnot hs hk hd] at h
            cases hr : den n s e (DenTask.one d) with
            | none => rw [hr] at h; exact absurd h (by simp)
            | some b1 =>
              rw [hr] at h
              rw [den_one_cnot hs hk hd, ih s e _ b1 hr]
              exact h
        | cand ds =>
          rw [den_one_cand hs hk] at h
          rw [den_one_cand hs hk]
          exact ih s e _ b h
        | cor ds =>
          rw [den_one_cor hs hk] at h
          rw [den_one_cor hs hk]
          exact ih s e _ b h
    | conj ds =>
      cases ds with
      | nil => rw [den_conj_nil] at h; rw [den_conj_nil]; exact h
      | cons d rest =>
        cases hd : slookup s d with
        | none =>
          rw [den_conj_dangling hd] at h
          rw [den_conj_dangling hd]; exact h
        | some o1 =>
          cases hr : den n s e (DenTask.one d) with
          | none =>
            simp only [den, hd, hr] at h
            exact absurd h (by simp)
          | some b1 =>
            cases b1 with
            | true =>
              rw [den_conj_cons_true hd hr] at h
              rw [den_conj_cons_true hd (ih s e _ true hr)]
              exact ih s e _ b h
            | false =>
              rw [den_conj_cons_false hd hr] at h
              rw [den_conj_cons_false hd (ih s e _ false hr)]
              exact h
    | disj ds =>
      cases ds with
      | nil => rw [den_disj_nil] at h; rw [den_disj_nil]; exact h
      | cons d rest =>
        cases hd : slookup s d with
        | none =>
          rw [den_disj_dangling hd] at h
          rw [den_disj_dangling hd]
          exact ih s e _ b h
        | some o1 =>
          cases hr : den n s e (DenTask.one d) with
          | none =>
            simp only [den, hd, hr] at h
            exact absurd h (by simp)
          | some b1 =>
            cases b1 with
            | true =>
              rw [den_disj_cons_true hd hr] at h
              rw [den_disj_cons_true hd (ih s e _ true hr)]
              exact h
            | false =>
              rw [den_disj_cons_false hd hr] at h
              rw [den_disj_cons_false hd (ih s e _ false hr)]
              exact ih s e _ b h

theorem den_le {m n : Nat} {s : Store} {e : FlatEvent} {t : DenTask} {b : Bool}
    (hmn : m ≤ n) (h : den m s e t = some b) : den n s e t = some b := by
  induction hmn with
  | refl => exact h
  | step h' ih => exact den_mono _ s e t b ih

theorem den_det {m n : Nat} {s : Store} {e : FlatEvent} {t : DenTask} {b b' : Bool}
    (h1 : den m s e t = some b) (h2 : den n s e t = some b') : b = b' := by
  rcases Nat.le_total m n with hle | hle
  · have h3 := den_le hle h1
    rw [h3] at h2
    exact Option.some.inj h2
  · have h3 := den_le hle h2
    rw [h3] at h1
    exact (Option.some.inj h1).symm

theorem den_congr :
    ∀ (n : Nat) (s s' : Store) (e : FlatEvent) (t : DenTask),
      (∀ j, kindView s' j = kindView s j) → den n s' e t = den n s e t := by
  intro n
  induction n with
  | zero => intro s s' e t _; simp [den]
  | succ n ih =>
    intro s s' e t hkv
    cases t with
    | one i =>
      cases hs : slookup s i with
      | none =>
        have hs' : slookup s' i = none :=
          kindView_none_iff.mp ((hkv i).trans (kindView_none_iff.mpr hs))
        simp [den, hs, hs']
      | some o =>
        have h1 : kindView s i = some o.kind := by unfold kindView; rw [hs]; rfl
        obtain ⟨o', hs', hk'⟩ := kindView_some_iff.mp ((hkv i).trans h1)
        simp only [den, hs, hs', hk']
        cases hk : o.kind with
        | ctrue => rfl
        | cfalse => rfl
        | cnot d =>
          cases hd : slookup s d with
          | none =>
            have hd' : slookup s' d = none :=
              kindView_none_iff.mp ((hkv d).trans (kindView_none_iff.mpr hd))
            simp [hd, hd']
          | some o1 =>
            have h2 : kindView s d = some o1.kind := by unfold kindView; rw [hd]; rfl
            obtain ⟨o1', hd', _⟩ := kindView_some_iff.mp ((hkv d).trans h2)
            simp only [hd, hd']
            rw [ih s s' e _ hkv]
        | cand ds => exact ih s s' e _ hkv
        | cor ds => exact ih s s' e _ hkv
    | conj ds =>
      cases ds with
      | nil => simp [den]
      | cons d rest =>
        cases hd : slookup s d with
        | none =>
          have hd' : slookup s' d = none :=
            kindView_none_iff.mp ((hkv d).trans (kindView_none_iff.mpr hd))
          simp [den, hd, hd']
        | some o1 =>
          have h2 : kindView s d = some o1.kind := by unfold kindView; rw [hd]; rfl
          obtain ⟨o1', hd', _⟩ := kindView_some_iff.mp ((hkv d).trans h2)
          simp only [den, hd, hd']
          rw [ih s s' e (DenTask.one d) hkv]
          cases den n s e (DenTask.one d) with
          | none => rfl
          | some b1 =>
            cases b1 with
            | true => simp; exact ih s s' e _ hkv
            | false => simp
    | disj ds =>
      cases ds with
      | nil => simp [den]
      | cons d rest =>
        cases hd : slookup s d with
        | none =>
          have hd' : slookup s' d = none :=
            kindView_none_iff.mp ((hkv d).trans (kindView_none_iff.mpr hd))
          simp only [den, hd, hd']
          exact ih s s' e _ hkv
        | some o1 =>
          have h2 : kindView s d = some o1.kind := by unfold kindView; rw [hd]; rfl
          obtain ⟨o1', hd', _⟩ := kindView_some_iff.mp ((hkv d).trans h2)
          simp only [den, hd, hd']
          rw [ih s s' e (DenTask.one d) hkv]
          cases den n s e (DenTask.one d) with
          | none => rfl
          | some b1 =>
            cases b1 with
            | true => simp
            | false => simp; exact ih s s' e _ hkv

/-! ### Soundness of the interpreter with respect to the denotation

If every valid cache in the store agrees with the pure denotation (which
is in particular the case when every cache is invalid, i.e. right after
the per-event cache sweep), then `check`/`evaluate` return exactly the
pure denotation of the condition, and leave all caches sound.  This is
why the short-circuit evaluation and the caching cannot change the
boolean-formula result. -/

/-- Every valid cache value agrees with the pure denotation. -/
def CacheSound (s : Store) (e : FlatEvent) : Prop :=
  ∀ i o b, slookup s i = some o → cachedValue o = some b →
    ∃ m, den m s e (DenTask.one i) = some b

/-- The denotation task corresponding to an interpreter task. -/
def taskDen : EvalTask → DenTask
  | EvalTask.chk i => DenTask.one i
  | EvalTask.evl i => DenTask.one i
  | EvalTask.andL ds => DenTask.conj ds
  | EvalTask.orL ds => DenTask.disj ds

theorem cacheSound_of_allNone {s : Store} {e : FlatEvent}
    (h : allCachesNone s) : CacheSound s e := by
  intro i o b hs hc
  have hnone : o.cache = none := h (i, o) (slookup_mem hs)
  exfalso
  cases hk : o.kind <;> simp [cachedValue, hk, hnone] at hc

theorem cacheSound_setCache {s1 : Store} {e : FlatEvent} {i : Nat} {b : Bool}
    (hcs : CacheSound s1 e)
    (hden : ∃ m, den m s1 e (DenTask.one i) = some b) :
    CacheSound (setCache s1 i (some b)) e := by
  have hkv2 : ∀ j, kindView (setCache s1 i (some b)) j = kindView s1 j :=
    fun j => kindView_setCache s1 i (some b) j
  intro j o' c hj hc
  by_cases hji : j = i
  · subst hji
    rw [slookup_setCache, if_pos rfl] at hj
    cases hs1 : slookup s1 j with
    | none => rw [hs1] at hj; exact absurd hj (by simp)
    | some o1 =>
      rw [hs1] at hj
      injection hj with hj
      have ho' : o' = CondObj.mk o1.kind (some b) := by rw [← hj]
      subst ho'
      obtain ⟨m, hm⟩ := hden
      cases hk1 : o1.kind with
      | ctrue => rw [hk1] at hc; simp [cachedValue] at hc
      | cfalse => rw [hk1] at hc; simp [cachedValue] at hc
      | cnot d =>
        rw [hk1, cachedValue_mk_cnot] at hc
        rw [← Option.some.inj hc]
        exact ⟨m, (den_congr m s1 _ e _ hkv2).trans hm⟩
      | cand ds =>
        rw [hk1, cachedValue_mk_cand] at hc
        rw [← Option.some.inj hc]
        exact ⟨m, (den_congr m s1 _ e _ hkv2).trans hm⟩
      | cor ds =>
        rw [hk1, cachedValue_mk_cor] at hc
        rw [← Option.some.inj hc]
        exact ⟨m, (den_congr m s1 _ e _ hkv2).trans hm⟩
  · rw [slookup_setCache, if_neg hji] at hj
    obtain ⟨m, hm⟩ := hcs j o' c hj hc
    exact ⟨m, (den_congr m s1 _ e _ hkv2).trans hm⟩

theorem pair_some_inj {α β : Type} {a a' : α} {b b' : β}
    (h : some (a, b) = some (a', b')) : a = a' ∧ b = b' := by
  injection h with h1
  exact ⟨congrArg Prod.fst h1, congrArg Prod.snd h1⟩

theorem run_sound :
    ∀ (n : Nat) (s : Store) (e : FlatEvent) (t : EvalTask) (b : Bool) (s' : Store),
      CacheSound s e → run n s e t = some (b, s') →
      CacheSound s' e ∧ ∃ m, den m s e (taskDen t) = some b := by
  intro n
  induction n with
  | zero => intro s e t b s' _ h; simp [run] at h
  | succ n ih =>
    intro s e t b s' hcs h
    cases t with
    | chk i =>
      cases hs : slookup s i with
      | none => simp [run, hs] at h
      | some o =>
        cases hc : cachedValue o with
        | some b0 =>
          have hstep : run (Nat.succ n) s e (EvalTask.chk i) = some (b0, s) := by
            simp [run, hs, hc]
          rw [hstep] at h
          obtain ⟨hb, hs'⟩ := pair_some_inj h
          subst hb; subst hs'
          exact ⟨hcs, hcs i o b0 hs hc⟩
        | none =>
          have hstep : run (Nat.succ n) s e (EvalTask.chk i) =
              run n s e (EvalTask.evl i) := by simp [run, hs, hc]
          rw [hstep] at h
          exact ih s e (EvalTask.evl i) b s' hcs h
    | evl i =>
      cases hs : slookup s i with
      | none => simp [run, hs] at h
      | some o =>
        cases hk : o.kind with
        | ctrue =>
          have hstep : run (Nat.succ n) s e (EvalTask.evl i) = some (true, s) := by
            simp [run, hs, hk]
          rw [hstep] at h
          obtain ⟨hb, hs'⟩ := pair_some_inj h
          subst hb; subst hs'
          exact ⟨hcs, 1, den_one_ctrue hs hk⟩
        | cfalse =>
          have hstep : run (Nat.succ n) s e (EvalTask.evl i) = some (false, s) := by
            simp [run, hs, hk]
          rw [hstep] at h
          obtain ⟨hb, hs'⟩ := pair_some_inj h
          subst hb; subst hs'
          exact ⟨hcs, 1, den_one_cfalse hs hk⟩
        | cnot d =>
          cases hd : slookup s d with
          | none =>
            have hstep : run (Nat.succ n) s e (EvalTask.evl i) =
                some (false, setCache s i (some false)) := by simp [run, hs, hk, hd]
            rw [hstep] at h
            obtain ⟨hb, hs'⟩ := pair_some_inj h
            subst hb; subst hs'
            exact ⟨cacheSound_setCache hcs ⟨1, den_one_cnot_dangling hs hk hd⟩,
              1, den_one_cnot_dangling hs hk hd⟩
          | some o1 =>
            cases hr : run n s e (EvalTask.chk d) with
            | none => simp [run, hs, hk, hd, hr] at h
            | some p =>
              obtain ⟨b1, s1⟩ := p
              obtain ⟨hcs1, m1, hm1⟩ := ih s e (EvalTask.chk d) b1 s1 hcs hr
              simp only [taskDen] at hm1
              have hkv1 : ∀ j, kindView s1 j = kindView s j := run_pres n s e _ b1 s1 hr
              have hstep : run (Nat.succ n) s e (EvalTask.evl i) =
                  some (!b1, setCache s1 i (some (!b1))) := by simp [run, hs, hk, hd, hr]
              rw [hstep] at h
              obtain ⟨hb, hs'⟩ := pair_some_inj h
              subst hb; subst hs'
              have hdenS : den (m1 + 1) s e (DenTask.one i) = some (!b1) := by
                rw [den_one_cnot hs hk hd, hm1]; rfl
              have hdenS1 : den (m1 + 1) s1 e (DenTask.one i) = some (!b1) :=
                (den_congr (m1 + 1) s s1 e _ hkv1).trans hdenS
              exact ⟨cacheSound_setCache hcs1 ⟨m1 + 1, hdenS1⟩, m1 + 1, hdenS⟩
        | cand ds =>
          cases hc : o.cache with
          | some c =>
            have hstep : run (Nat.succ n) s e (EvalTask.evl i) = some (c, s) := by
              simp [run, hs, hk, hc]
            rw [hstep] at h
            obtain ⟨hb, hs'⟩ := pair_some_inj h
            subst hb; subst hs'
            exact ⟨hcs, hcs i o c hs ((cachedValue_of_kind_cand hk).trans hc)⟩
          | none =>
            cases hr : run n s e (EvalTask.andL ds) with
            | none => simp [run, hs, hk, hc, hr] at h
            | some p =>
              obtain ⟨r, s1⟩ := p
              obtain ⟨hcs1, m1, hm1⟩ := ih s e (EvalTask.andL ds) r s1 hcs hr
              simp only [taskDen] at hm1
              have hkv1 : ∀ j, kindView s1 j = kindView s j := run_pres n s e _ r s1 hr
              have hstep : run (Nat.succ n) s e (EvalTask.evl i) =
                  some (r, setCache s1 i (some r)) := by simp [run, hs, hk, hc, hr]
              rw [hstep] at h
              obtain ⟨hb, hs'⟩ := pair_some_inj h
              subst hb; subst hs'
              have hdenS : den (m1 + 1) s e (DenTask.one i) = some r := by
                rw [den_one_cand hs hk]; exact hm1
              have hdenS1 : den (m1 + 1) s1 e (DenTask.one i) = some r :=
                (den_congr (m1 + 1) s s1 e _ hkv1).trans hdenS
              exact ⟨cacheSound_setCache hcs1 ⟨m1 + 1, hdenS1⟩, m1 + 1, hdenS⟩
        | cor ds =>
          cases hc : o.cache with
          | some c =>
            have hstep : run (Nat.succ n) s e (EvalTask.evl i) = some (c, s) := by
              simp [run, hs, hk, hc]
            rw [hstep] at h
            obtain ⟨hb, hs'⟩ := pair_some_inj h
            subst hb; subst hs'
            exact ⟨hcs, hcs i o c hs ((cachedValue_of_kind_cor hk).trans hc)⟩
          | none =>
            cases hr : run n s e (EvalTask.orL ds) with
            | none => simp [run, hs, hk, hc, hr] at h
            | some p =>
              obtain ⟨r, s1⟩ := p
              obtain ⟨hcs1, m1, hm1⟩ := ih s e (EvalTask.orL ds) r s1 hcs hr
              simp only [taskDen] at hm1
              have hkv1 : ∀ j, kindView s1 j = kindView s j := run_pres n s e _ r s1 hr
              have hstep : run (Nat.succ n) s e (EvalTask.evl i) =
                  some (r, setCache s1 i (some r)) := by simp [run, hs, hk, hc, hr]
              rw [hstep] at h
              obtain ⟨hb, hs'⟩ := pair_some_inj h
              subst hb; subst hs'
              have hdenS : den (m1 + 1) s e (DenTask.one i) = some r := by
                rw [den_one_cor hs hk]; exact hm1
              have hdenS1 : den (m1 + 1) s1 e (DenTask.one i) = some r :=
                (den_congr (m1 + 1) s s1 e _ hkv1).trans hdenS
              exact ⟨cacheSound_setCache hcs1 ⟨m1 + 1, hdenS1⟩, m1 + 1, hdenS⟩
    | andL ds =>
      cases ds with
      | nil =>
        have hstep : run (Nat.succ n) s e (EvalTask.andL []) = some (true, s) := by
          simp [run]
        rw [hstep] at h
        obtain ⟨hb, hs'⟩ := pair_some_inj h
        subst hb; subst hs'
        exact ⟨hcs, 1, den_conj_nil⟩
      | cons d rest =>
        cases hd : slookup s d with
        | none =>
          have hstep : run (Nat.succ n) s e (EvalTask.andL (d :: rest)) =
              some (false, s) := by simp [run, hd]
          rw [hstep] at h
          obtain ⟨hb, hs'⟩ := pair_some_inj h
          subst hb; subst hs'
          exact ⟨hcs, 1, den_conj_dangling hd⟩
        | some o1 =>
          cases hr : run n s e (EvalTask.chk d) with
          | none => simp [run, hd, hr] at h
          | some p =>
            obtain ⟨b1, s1⟩ := p
            obtain ⟨hcs1, m1, hm1⟩ := ih s e (EvalTask.chk d) b1 s1 hcs hr
            simp only [taskDen] at hm1
            have hkv1 : ∀ j, kindView s1 j = kindView s j := run_pres n s e _ b1 s1 hr
            cases b1 with
            | false =>
              have hstep : run (Nat.succ n) s e (EvalTask.andL (d :: rest)) =
                  some (false, s1) := by simp [run, hd, hr]
              rw [hstep] at h
              obtain ⟨hb, hs'⟩ := pair_some_inj h
              subst hb; subst hs'
              exact ⟨hcs1, m1 + 1, den_conj_cons_false hd hm1⟩
            | true =>
              have hstep : run (Nat.succ n) s e (EvalTask.andL (d :: rest)) =
                  run n s1 e (EvalTask.andL rest) := by simp [run, hd, hr]
              rw [hstep] at h
              obtain ⟨hcs2, m2, hm2⟩ := ih s1 e (EvalTask.andL rest) b s' hcs1 h
              simp only [taskDen] at hm2
              have hm2' : den m2 s e (DenTask.conj rest) = some b :=
                (den_congr m2 s s1 e _ hkv1).symm.trans hm2
              refine ⟨hcs2, max m1 m2 + 1, ?_⟩
              simp only [taskDen]
              rw [den_conj_cons_true hd (den_le (Nat.le_max_left m1 m2) hm1)]
              exact den_le (Nat.le_max_right m1 m2) hm2'
    | orL ds =>
      cases ds with
      | nil =>
        have hstep : run (Nat.succ n) s e (EvalTask.orL []) = some (false, s) := by
          simp [run]
        rw [hstep] at h
        obtain ⟨hb, hs'⟩ := pair_some_inj h
        subst hb; subst hs'
        exact ⟨hcs, 1, den_disj_nil⟩
      | cons d rest =>
        cases hd : slookup s d with
        | none =>
          have hstep : run (Nat.succ n) s e (EvalTask.orL (d :: rest)) =
              run n s e (EvalTask.orL rest) := by simp [run, hd]
          rw [hstep] at h
          obtain ⟨hcs2, m2, hm2⟩ := ih s e (EvalTask.orL rest) b s' hcs h
          simp only [taskDen] at hm2
          refine ⟨hcs2, m2 + 1, ?_⟩
          simp only [taskDen]
          rw [den_disj_dangling hd]
          exact hm2
        | some o1 =>
          cases hr : run n s e (EvalTask.chk d) with
          | none => simp [run, hd, hr] at h
          | some p =>
            obtain ⟨b1, s1⟩ := p
            obtain ⟨hcs1, m1, hm1⟩ := ih s e (EvalTask.chk d) b1 s1 hcs hr
            simp only [taskDen] at hm1
            have hkv1 : ∀ j, kindView s1 j = kindView s j := run_pres n s e _ b1 s1 hr
            cases b1 with
            | true =>
              have hstep : run (Nat.succ n) s e (EvalTask.orL (d :: rest)) =
                  some (true, s1) := by simp [run, hd, hr]
              rw [hstep] at h
              obtain ⟨hb, hs'⟩ := pair_some_inj h
              subst hb; subst hs'
              exact ⟨hcs1, m1 + 1, den_disj_cons_true hd hm1⟩
            | false =>
              have hstep : run (Nat.succ n) s e (EvalTask.orL (d :: rest)) =
                  run n s1 e (EvalTask.orL rest) := by simp [run, hd, hr]
              rw [hstep] at h
              obtain ⟨hcs2, m2, hm2⟩ := ih s1 e (EvalTask.orL rest) b s' hcs1 h
              simp only [taskDen] at hm2
              have hm2' : den m2 s e (DenTask.disj rest) = some b :=
                (den_congr m2 s s1 e _ hkv1).symm.trans hm2
              refine ⟨hcs2, max m1 m2 + 1, ?_⟩
              simp only [taskDen]
              rw [den_disj_cons_false hd (den_le (Nat.le_max_left m1 m2) hm1)]
              exact den_le (Nat.le_max_right m1 m2) hm2'

/-! ### Claim C1: compound conditions compute the boolean formula -/

/-- The check results of a list of dependent conditions, each taken
against the same starting store (the state at the beginning of the
event). -/
def depChecks (n : Nat) (s : Store) (e : FlatEvent) : List Nat → Option (List Bool)
  | [] => some []
  | d :: rest =>
    match run n s e (EvalTask.chk d) with
    | none => none
    | some p => (depChecks n s e rest).map (fun bs => p.1 :: bs)

theorem den_conj_of_depChecks :
    ∀ (ds : List Nat) (bs : List Bool) (n : Nat) (s : Store) (e : FlatEvent),
      CacheSound s e → (∀ d ∈ ds, (slookup s d).isSome) →
      depChecks n s e ds = some bs →
      ∃ M, den M s e (DenTask.conj ds) = some (bs.all id) := by
  intro ds
  induction ds with
  | nil =>
    intro bs n s e _ _ h
    simp [depChecks] at h
    subst h
    exact ⟨1, den_conj_nil⟩
  | cons d rest ih =>
    intro bs n s e hcs hlive h
    cases hr : run n s e (EvalTask.chk d) with
    | none => simp [depChecks, hr] at h
    | some p =>
      obtain ⟨b1, s1⟩ := p
      cases hrest : depChecks n s e rest with
      | none => simp [depChecks, hr, hrest] at h
      | some bs' =>
        have hbs : bs = b1 :: bs' := by
          simp [depChecks, hr, hrest] at h
          rw [← h]
        subst hbs
        obtain ⟨_, m1, hm1⟩ := run_sound n s e (EvalTask.chk d) b1 s1 hcs hr
        simp only [taskDen] at hm1
        obtain ⟨M2, hM2⟩ := ih bs' n s e hcs
          (fun d' hd' => hlive d' (List.mem_cons_of_mem d hd')) hrest
        have hdlive : (slookup s d).isSome := hlive d (List.mem_cons_self d rest)
        obtain ⟨o1, ho1⟩ := Option.isSome_iff_exists.mp hdlive
        have h1 : den (max m1 M2) s e (DenTask.one d) = some b1 :=
          den_le (Nat.le_max_left m1 M2) hm1
        have h2 : den (max m1 M2) s e (DenTask.conj rest) = some (bs'.all id) :=
          den_le (Nat.le_max_right m1 M2) hM2
        refine ⟨max m1 M2 + 1, ?_⟩
        cases b1 with
        | true =>
          rw [den_conj_cons_true ho1 h1]
          simpa using h2
        | false =>
          rw [den_conj_cons_false ho1 h1]
          simp

theorem den_disj_of_depChecks :
    ∀ (ds : List Nat) (bs : List Bool) (n : Nat) (s : Store) (e : FlatEvent),
      CacheSound s e → (∀ d ∈ ds, (slookup s d).isSome) →
      depChecks n s e ds = some bs →
      ∃ M, den M s e (DenTask.disj ds) = some (bs.any id) := by
  intro ds
  induction ds with
  | nil =>
    intro bs n s e _ _ h
    simp [depChecks] at h
    subst h
    exact ⟨1, den_disj_nil⟩
  | cons d rest ih =>
    intro bs n s e hcs hlive h
    cases hr : run n s e (EvalTask.chk d) with
    | none => simp [depChecks, hr] at h
    | some p =>
      obtain ⟨b1, s1⟩ := p
      cases hrest : depChecks n s e rest with
      | none => simp [depChecks, hr, hrest] at h
      | some bs' =>
        have hbs : bs = b1 :: bs' := by
          simp [depChecks, hr, hrest] at h
          rw [← h]
        subst hbs
        obtain ⟨_, m1, hm1⟩ := run_sound n s e (EvalTask.chk d) b1 s1 hcs hr
        simp only [taskDen] at hm1
        obtain ⟨M2, hM2⟩ := ih bs' n s e hcs
          (fun d' hd' => hlive d' (List.mem_cons_of_mem d hd')) hrest
        have hdlive : (slookup s d).isSome := hlive d (List.mem_cons_self d rest)
        obtain ⟨o1, ho1⟩ := Option.isSome_iff_exists.mp hdlive
        have h1 : den (max m1 M2) s e (DenTask.one d) = some b1 :=
          den_le (Nat.le_max_left m1 M2) hm1
        have h2 : den (max m1 M2) s e (DenTask.disj rest) = some (bs'.any id) :=
          den_le (Nat.le_max_right m1 M2) hM2
        refine ⟨max m1 M2 + 1, ?_⟩
        cases b1 with
        | true =>
          rw [den_disj_cons_true ho1 h1]
          simp
        | false =>
          rw [den_disj_cons_false ho1 h1]
          simpa using h2

/-- Claim C1.  With every cache invalid and every dependent weak
reference live, a compound condition's `check` equals the boolean
formula applied to the dependents' `check` results: the negation for
`Not`, the conjunction for `And`, the disjunction for `Or` — the
left-to-right short-circuit evaluation does not change this result. -/
theorem c1_compound_boolean_formula :
    ∀ (n : Nat) (s : Store) (e : FlatEvent) (i : Nat) (b : Bool) (s' : Store),
      allCachesNone s →
      (∀ d bd s2, slookup s i = some (CondObj.mk (CondKind.cnot d) none) →
        (slookup s d).isSome →
        checkC n s e i = some (b, s') → checkC n s e d = some (bd, s2) →
        b = !bd) ∧
      (∀ ds bs, slookup s i = some (CondObj.mk (CondKind.cand ds) none) →
        (∀ d ∈ ds, (slookup s d).isSome) →
        checkC n s e i = some (b, s') → depChecks n s e ds = some bs →
        b = bs.all id) ∧
      (∀ ds bs, slookup s i = some (CondObj.mk (CondKind.cor ds) none) →
        (∀ d ∈ ds, (slookup s d).isSome) →
        checkC n s e i = some (b, s') → depChecks n s e ds = some bs →
        b = bs.any id) := by
  intro n s e i b s' hAll
  have hcs : CacheSound s e := cacheSound_of_allNone hAll
  refine ⟨?_, ?_, ?_⟩
  · intro d bd s2 hs hdlive hi hd
    obtain ⟨_, m, hm⟩ := run_sound n s e (EvalTask.chk i) b s' hcs hi
    simp only [taskDen] at hm
    obtain ⟨_, md, hmd⟩ := run_sound n s e (EvalTask.chk d) bd s2 hcs hd
    simp only [taskDen] at hmd
    obtain ⟨o1, ho1⟩ := Option.isSome_iff_exists.mp hdlive
    cases m with
    | zero => simp [den] at hm
    | succ m' =>
      rw [den_one_cnot hs rfl ho1] at hm
      cases hr1 : den m' s e (DenTask.one d) with
      | none => rw [hr1] at hm; exact absurd hm (by simp)
      | some bd' =>
        rw [hr1] at hm
        have hbd : bd' = bd := den_det hr1 hmd
        subst hbd
        rw [Option.map_some'] at hm
        exact (Option.some.inj hm).symm
  · intro ds bs hs hlive hi hdeps
    obtain ⟨_, m, hm⟩ := run_sound n s e (EvalTask.chk i) b s' hcs hi
    simp only [taskDen] at hm
    obtain ⟨M, hM⟩ := den_conj_of_depChecks ds bs n s e hcs hlive hdeps
    cases m with
    | zero => simp [den] at hm
    | succ m' =>
      rw [den_one_cand hs rfl] at hm
      exact den_det hm hM
  · intro ds bs hs hlive hi hdeps
    obtain ⟨_, m, hm⟩ := run_sound n s e (EvalTask.chk i) b s' hcs hi
    simp only [taskDen] at hm
    obtain ⟨M, hM⟩ := den_disj_of_depChecks ds bs n s e hcs hlive hdeps
    cases m with
    | zero => simp [den] at hm
    | succ m' =>
      rw [den_one_cor hs rfl] at hm
      exact den_det hm hM

/-- A five-cell example: 0 = And(1, 2), 3 = Or(1, 2), 4 = Not(2), over
1 = True and 2 = False. -/
def exCompoundStore : Store :=
  [(0, CondObj.mk (CondKind.cand [1, 2]) none),
   (1, CondObj.mk CondKind.ctrue none),
   (2, CondObj.mk CondKind.cfalse none),
   (3, CondObj.mk (CondKind.cor [1, 2]) none),
   (4, CondObj.mk (CondKind.cnot 2) none)]

/-- Witness for C1: on the example store, `And(True, False)` checks to the
conjunction of its dependents' checks, `Or(True, False)` to their
disjunction, and `Not(False)` to the negation. -/
theorem c1_witness :
    (false : Bool) = List.all [true, false] id ∧
    (true : Bool) = List.any [true, false] id ∧
    (true : Bool) = !false :=
  ⟨(c1_compound_boolean_formula 20 exCompoundStore [] 0 false
      (setCache exCompoundStore 0 (some false)) (by decide)).2.1 [1, 2] [true, false]
      (by rfl) (by decide) (by rfl) (by rfl),
   (c1_compound_boolean_formula 20 exCompoundStore [] 3 true
      (setCache exCompoundStore 3 (some true)) (by decide)).2.2 [1, 2] [true, false]
      (by rfl) (by decide) (by rfl) (by rfl),
   (c1_compound_boolean_formula 20 exCompoundStore [] 4 true
      (setCache exCompoundStore 4 (some true)) (by decide)).1 2 false exCompoundStore
      (by rfl) (by decide) (by rfl) (by rfl)⟩

/-! ### Claim C2: dangling weak references contribute false -/

theorem run_andL_dangling_mem :
    ∀ (n : Nat) (s : Store) (e : FlatEvent) (ds : List Nat) (d : Nat) (r : Bool)
      (s' : Store), d ∈ ds → slookup s d = none →
      run n s e (EvalTask.andL ds) = some (r, s') → r = false := by
  intro n
  induction n with
  | zero => intro s e ds d r s' _ _ h; simp [run] at h
  | succ n ih =>
    intro s e ds d r s' hmem hdang h
    cases ds with
    | nil => simp at hmem
    | cons d0 rest =>
      cases hd0 : slookup s d0 with
      | none =>
        have hstep : run (Nat.succ n) s e (EvalTask.andL (d0 :: rest)) =
            some (false, s) := by simp [run, hd0]
        rw [hstep] at h
        exact (pair_some_inj h).1.symm
      | some o0 =>
        have hne : d ≠ d0 := by
          intro hdd
          rw [hdd, hd0] at hdang
          exact absurd hdang (by simp)
        have hmem' : d ∈ rest := by
          cases List.mem_cons.mp hmem with
          | inl hh => exact absurd hh hne
          | inr hh => exact hh
        cases hr : run n s e (EvalTask.chk d0) with
        | none => simp [run, hd0, hr] at h
        | some p =>
          obtain ⟨b1, s1⟩ := p
          cases b1 with
          | false =>
            have hstep : run (Nat.succ n) s e (EvalTask.andL (d0 :: rest)) =
                some (false, s1) := by simp [run, hd0, hr]
            rw [hstep] at h
            exact (pair_some_inj h).1.symm
          | true =>
            have hstep : run (Nat.succ n) s e (EvalTask.andL (d0 :: rest)) =
                run n s1 e (EvalTask.andL rest) := by simp [run, hd0, hr]
            rw [hstep] at h
            have hdang1 : slookup s1 d = none :=
              kindView_none_iff.mp
                ((run_pres n s e _ true s1 hr d).trans (kindView_none_iff.mpr hdang))
            exact ih s1 e rest d r s' hmem' hdang1 h

theorem den_disj_false_of :
    ∀ (ds : List Nat) (m : Nat) (s : Store) (e : FlatEvent) (r : Bool),
      den m s e (DenTask.disj ds) = some r →
      (∀ d ∈ ds, slookup s d = none ∨ ∃ md, den md s e (DenTask.one d) = some false) →
      r = false := by
  intro ds
  induction ds with
  | nil =>
    intro m s e r h _
    cases m with
    | zero => simp [den] at h
    | succ m' =>
      rw [den_disj_nil] at h
      exact (Option.some.inj h).symm
  | cons d rest ih =>
    intro m s e r h hyp
    cases m with
    | zero => simp [den] at h
    | succ m' =>
      cases hd : slookup s d with
      | none =>
        rw [den_disj_dangling hd] at h
        exact ih m' s e r h (fun d' hd' => hyp d' (List.mem_cons_of_mem d hd'))
      | some o1 =>
        cases hyp d (List.mem_cons_self d rest) with
        | inl hcontra => rw [hd] at hcontra; exact absurd hcontra (by simp)
        | inr hfd =>
          obtain ⟨md, hmd⟩ := hfd
          cases hr1 : den m' s e (DenTask.one d) with
          | none =>
            rw [den_disj_cons_stuck hd hr1] at h
            exact absurd h (by simp)
          | some b1 =>
            have hb1 : b1 = false := den_det hr1 hmd
            subst hb1
            rw [den_disj_cons_false hd hr1] at h
            exact ih m' s e r h (fun d' hd' => hyp d' (List.mem_cons_of_mem d hd'))

/-- Claim C2.  A dangling dependent weak reference contributes `false`:
a `Not` over a dangling reference evaluates to `false`; an `And` whose
list contains a dangling reference checks to `false` (short-circuiting at
it); `Or` skips a dangling reference, treating it as `false`, so an `Or`
all of whose dependents are dangling or check `false` checks to
`false`. -/
theorem c2_dangling_contributes_false :
    ∀ (n : Nat) (s : Store) (e : FlatEvent) (i : Nat),
      (∀ d, slookup s i = some (CondObj.mk (CondKind.cnot d) none) →
        slookup s d = none →
        checkC (n + 2) s e i = some (false, setCache s i (some false))) ∧
      (∀ ds d b s', slookup s i = some (CondObj.mk (CondKind.cand ds) none) →
        d ∈ ds → slookup s d = none →
        checkC n s e i = some (b, s') → b = false) ∧
      (∀ d rest, slookup s d = none →
        run (n + 1) s e (EvalTask.orL (d :: rest)) = run n s e (EvalTask.orL rest)) ∧
      (∀ ds b s', allCachesNone s →
        slookup s i = some (CondObj.mk (CondKind.cor ds) none) →
        (∀ d ∈ ds, slookup s d = none ∨
          ∃ s2, checkC n s e d = some (false, s2)) →
        checkC n s e i = some (b, s') → b = false) := by
  intro n s e i
  refine ⟨?_, ?_, ?_, ?_⟩
  · intro d hs hd
    show run (Nat.succ (Nat.succ n)) s e (EvalTask.chk i) = _
    simp [run, hs, hd, cachedValue]
  · intro ds d b s' hs hmem hdang h
    unfold checkC at h
    cases n with
    | zero => simp [run] at h
    | succ n1 =>
      have hstep : run (Nat.succ n1) s e (EvalTask.chk i) =
          run n1 s e (EvalTask.evl i) := by simp [run, hs, cachedValue]
      rw [hstep] at h
      cases n1 with
      | zero => simp [run] at h
      | succ n2 =>
        cases hr : run n2 s e (EvalTask.andL ds) with
        | none => simp [run, hs, hr] at h
        | some p =>
          obtain ⟨r, s1⟩ := p
          have hstep2 : run (Nat.succ n2) s e (EvalTask.evl i) =
              some (r, setCache s1 i (some r)) := by simp [run, hs, hr]
          rw [hstep2] at h
          have hr0 : r = false := run_andL_dangling_mem n2 s e ds d r s1 hmem hdang hr
          rw [← (pair_some_inj h).1, hr0]
  · intro d rest hd
    simp [run, hd]
  · intro ds b s' hAll hs hyp h
    have hcs : CacheSound s e := cacheSound_of_allNone hAll
    obtain ⟨_, m, hm⟩ := run_sound n s e (EvalTask.chk i) b s' hcs h
    simp only [taskDen] at hm
    cases m with
    | zero => simp [den] at hm
    | succ m' =>
      rw [den_one_cor hs rfl] at hm
      refine den_disj_false_of ds m' s e b hm ?_
      intro d hd
      cases hyp d hd with
      | inl hh => exact Or.inl hh
      | inr hh =>
        obtain ⟨s2, h2⟩ := hh
        obtain ⟨_, md, hmd⟩ := run_sound n s e (EvalTask.chk d) false s2 hcs h2
        simp only [taskDen] at hmd
        exact Or.inr ⟨md, hmd⟩

/-- A store for C2: 0 = Not(9), 1 = And(2, 9), 2 = True, 3 = Or(9, 4),
4 = False; cell 9 does not exist (its strong reference was dropped). -/
def exDanglingStore : Store :=
  [(0, CondObj.mk (CondKind.cnot 9) none),
   (1, CondObj.mk (CondKind.cand [2, 9]) none),
   (2, CondObj.mk CondKind.ctrue none),
   (3, CondObj.mk (CondKind.cor [9, 4]) none),
   (4, CondObj.mk CondKind.cfalse none)]

/-- Witness for C2: on the example store, `Not(dangling)` checks to
`false`; `And(True, dangling)` checks to `false`; the `Or` loop skips the
dangling head; `Or(dangling, False)` checks to `false`. -/
theorem c2_witness :
    checkC 10 exDanglingStore [] 0 =
        some (false, setCache exDanglingStore 0 (some false)) ∧
    (false : Bool) = false ∧
    run 9 exDanglingStore [] (EvalTask.orL [9, 4]) =
        run 8 exDanglingStore [] (EvalTask.orL [4]) ∧
    (false : Bool) = false :=
  ⟨(c2_dangling_contributes_false 8 exDanglingStore [] 0).1 9 (by rfl) (by rfl),
   (c2_dangling_contributes_false 10 exDanglingStore [] 1).2.1 [2, 9] 9 false
      (setCache exDanglingStore 1 (some false)) (by rfl) (by decide) (by rfl) (by rfl),
   (c2_dangling_contributes_false 8 exDanglingStore [] 3).2.2.1 9 [4] (by rfl),
   (c2_dangling_contributes_false 10 exDanglingStore [] 3).2.2.2 [9, 4] false
      (setCache exDanglingStore 3 (some false)) (by decide) (by rfl)
      (by
        intro d hd
        cases hd with
        | head => exact Or.inl (by rfl)
        | tail _ hh =>
          cases hh with
          | head => exact Or.inr ⟨exDanglingStore, by rfl⟩
          | tail _ hhh => cases hhh)
      (by rfl)⟩

/-! ### Claim C6: what `evaluate` does with a valid cache

`And::evaluate` and `Or::evaluate` begin with
`if let Some(c) = self.dependencies.cache { return c; }`: with a valid
cache they do *not* recompute from the dependents.  `Not::evaluate` has
no such early return and always recomputes.  Both `And`/`Or` (on an
invalid cache) and `Not` store the newly computed result. -/

/-- An `And(False)` cell whose cache stalely holds `true`. -/
def exStaleStore : Store :=
  [(0, CondObj.mk (CondKind.cand [1]) (some true)),
   (1, CondObj.mk CondKind.cfalse none)]

/-- The same two cells with the cache invalid. -/
def exFreshStore : Store :=
  [(0, CondObj.mk (CondKind.cand [1]) none),
   (1, CondObj.mk CondKind.cfalse none)]

/-- Counterexample to C6 as stated: `And::evaluate` on an `And(False)`
whose cache holds `true` returns the cached `true` unchanged, while the
same evaluation with the cache invalid computes `false` from the
dependent — so `evaluate` does not recompute when a cached value is
present. -/
theorem c6_counterexample :
    evalC 9 exStaleStore [] 0 = some (true, exStaleStore) ∧
    evalC 9 exFreshStore [] 0 =
      some (false, setCache exFreshStore 0 (some false)) :=
  ⟨rfl, rfl⟩

/-- Claim C6 as amended.  `And::evaluate` and `Or::evaluate` return the
cached value unchanged when one is present and recompute from the
dependent list only when the cache is invalid; `Not::evaluate` always
recomputes from its dependent, whatever its cache holds; in the
recomputing cases the newly computed result is stored, so subsequent
`get_cached_value` calls return `Some` of it. -/
theorem c6_evaluate_cache_behavior :
    ∀ (n : Nat) (s : Store) (e : FlatEvent) (i : Nat),
      (∀ ds c, slookup s i = some (CondObj.mk (CondKind.cand ds) (some c)) →
        evalC (n + 1) s e i = some (c, s)) ∧
      (∀ ds c, slookup s i = some (CondObj.mk (CondKind.cor ds) (some c)) →
        evalC (n + 1) s e i = some (c, s)) ∧
      (∀ d c o1 p, slookup s i = some (CondObj.mk (CondKind.cnot d) c) →
        slookup s d = some o1 → run n s e (EvalTask.chk d) = some p →
        evalC (n + 1) s e i =
          some (!p.1, setCache p.2 i (some (!p.1)))) ∧
      (∀ ds b s', slookup s i = some (CondObj.mk (CondKind.cand ds) none) →
        evalC n s e i = some (b, s') →
        slookup s' i = some (CondObj.mk (CondKind.cand ds) (some b))) ∧
      (∀ ds b s', slookup s i = some (CondObj.mk (CondKind.cor ds) none) →
        evalC n s e i = some (b, s') →
        slookup s' i = some (CondObj.mk (CondKind.cor ds) (some b))) ∧
      (∀ d c b s', slookup s i = some (CondObj.mk (CondKind.cnot d) c) →
        evalC n s e i = some (b, s') →
        slookup s' i = some (CondObj.mk (CondKind.cnot d) (some b))) := by
  intro n s e i
  refine ⟨?_, ?_, ?_, ?_, ?_, ?_⟩
  · intro ds c hs
    show run (Nat.succ n) s e (EvalTask.evl i) = _
    simp [run, hs]
  · intro ds c hs
    show run (Nat.succ n) s e (EvalTask.evl i) = _
    simp [run, hs]
  · intro d c o1 p hs hd hr
    obtain ⟨b1, s1⟩ := p
    show run (Nat.succ n) s e (EvalTask.evl i) = _
    simp [run, hs, hd, hr]
  · intro ds b s' hs h
    unfold evalC at h
    cases n with
    | zero => simp [run] at h
    | succ n1 =>
      cases hr : run n1 s e (EvalTask.andL ds) with
      | none => simp [run, hs, hr] at h
      | some p =>
        obtain ⟨r, s1⟩ := p
        have hstep : run (Nat.succ n1) s e (EvalTask.evl i) =
            some (r, setCache s1 i (some r)) := by simp [run, hs, hr]
        rw [hstep] at h
        obtain ⟨hb, hs'⟩ := pair_some_inj h
        subst hb; subst hs'
        have hkv : kindView s1 i = kindView s i := run_pres n1 s e _ r s1 hr i
        have h1 : kindView s i = some (CondKind.cand ds) := by
          unfold kindView; rw [hs]; rfl
        obtain ⟨o2, hs2, hk2⟩ := kindView_some_iff.mp (hkv.trans h1)
        rw [slookup_setCache_self hs2, hk2]
  · intro ds b s' hs h
    unfold evalC at h
    cases n with
    | zero => simp [run] at h
    | succ n1 =>
      cases hr : run n1 s e (EvalTask.orL ds) with
      | none => simp [run, hs, hr] at h
      | some p =>
        obtain ⟨r, s1⟩ := p
        have hstep : run (Nat.succ n1) s e (EvalTask.evl i) =
            some (r, setCache s1 i (some r)) := by simp [run, hs, hr]
        rw [hstep] at h
        obtain ⟨hb, hs'⟩ := pair_some_inj h
        subst hb; subst hs'
        have hkv : kindView s1 i = kindView s i := run_pres n1 s e _ r s1 hr i
        have h1 : kindView s i = some (CondKind.cor ds) := by
          unfold kindView; rw [hs]; rfl
        obtain ⟨o2, hs2, hk2⟩ := kindView_some_iff.mp (hkv.trans h1)
        rw [slookup_setCache_self hs2, hk2]
  · intro d c b s' hs h
    unfold evalC at h
    cases n with
    | zero => simp [run] at h
    | succ n1 =>
      cases hd : slookup s d with
      | none =>
        have hstep : run (Nat.succ n1) s e (EvalTask.evl i) =
            some (false, setCache s i (some false)) := by simp [run, hs, hd]
        rw [hstep] at h
        obtain ⟨hb, hs'⟩ := pair_some_inj h
        subst hb; subst hs'
        rw [slookup_setCache_self hs]
      | some o1 =>
        cases hr : run n1 s e (EvalTask.chk d) with
        | none => simp [run, hs, hd, hr] at h
        | some p =>
          obtain ⟨b1, s1⟩ := p
          have hstep : run (Nat.succ n1) s e (EvalTask.evl i) =
              some (!b1, setCache s1 i (some (!b1))) := by simp [run, hs, hd, hr]
          rw [hstep] at h
          obtain ⟨hb, hs'⟩ := pair_some_inj h
          subst hb; subst hs'
          have hkv : kindView s1 i = kindView s i := run_pres n1 s e _ b1 s1 hr i
          have h1 : kindView s i = some (CondKind.cnot d) := by
            unfold kindView; rw [hs]; rfl
          obtain ⟨o2, hs2, hk2⟩ := kindView_some_iff.mp (hkv.trans h1)
          rw [slookup_setCache_self hs2, hk2]

/-- Witness for the amended C6: the stale `And` returns its cache; the
fresh `And` stores its computed `false`; `Not(True)` recomputes and
stores the negation. -/
theorem c6_witness :
    evalC 4 exStaleStore [] 0 = some (true, exStaleStore) ∧
    slookup (setCache exFreshStore 0 (some false)) 0 =
      some (CondObj.mk (CondKind.cand [1]) (some false)) ∧
    evalC 6 exNotStore [] 0 =
      some (false, setCache exNotStore 0 (some false)) :=
  ⟨(c6_evaluate_cache_behavior 3 exStaleStore [] 0).1 [1] true (by rfl),
   (c6_evaluate_cache_behavior 9 exFreshStore [] 0).2.2.2.1 [1] false
      (setCache exFreshStore 0 (some false)) (by rfl) (by rfl),
   (c6_evaluate_cache_behavior 5 exNotStore [] 0).2.2.1 1 none
      (CondObj.mk CondKind.ctrue none) (true, exNotStore) (by rfl) (by rfl) (by rfl)⟩

/-! ### Parameters and spectra

Parameter metadata as used by the spectra constructors: optional default
axis limits (`get_limits`) and an optional default bin count
(`get_bins`), plus the stable id.  The `ParameterDictionary` type itself
(component A) is not among the analysed sources; per the spec it is a
name-to-parameter mapping, modelled as an association list. -/

/-- A registered parameter: id, optional default limits, optional default
bin count. -/
structure Parameter where
  id : Nat
  low : Option ℚ
  high : Option ℚ
  bins : Option Nat

deriving instance DecidableEq for Parameter

/-- Modelled from the spec: `ParameterDictionary`, a mapping from names to
parameters (component A, not in the analysed sources). -/
abbrev PDict := List (String × Parameter)

/-- Modelled from the spec: dictionary lookup by name. -/
def plookup : PDict → String → Option Parameter
  | [], _ => none
  | (n, p) :: rest, name => if n = name then some p else plookup rest name

/-- `Summary::min` (summary.rs lines 74-96): `None` if both arguments are
`None`, the non-`None` one if exactly one is, else the smaller value. -/
def summaryMin {α : Type} [LinearOrder α] : Option α → Option α → Option α
  | none, none => none
  | some v1, none => some v1
  | none, some v2 => some v2
  | some v1, some v2 => if v1 < v2 then some v1 else some v2

/-- `Summary::max` (summary.rs lines 98-120): as `Summary::min` with the
larger value. -/
def summaryMax {α : Type} [LinearOrder α] : Option α → Option α → Option α
  | none, none => none
  | some v1, none => some v1
  | none, some v2 => some v2
  | some v1, some v2 => if v1 > v2 then some v1 else some v2

/-- The parameter loop of `Summary::new` (summary.rs lines 140-154):
look each name up, accumulate `min` of lows, `max` of highs, `max` of
bin hints and the ids in order; fail on an unknown name. -/
def summaryAccum (pdict : PDict) :
    List String → Option ℚ → Option ℚ → Option Nat → List Nat →
    Except String (Option ℚ × Option ℚ × Option Nat × List Nat)
  | [], low, high, nbins, ids => Except.ok (low, high, nbins, ids)
  | name :: rest, low, high, nbins, ids =>
    match plookup pdict name with
    | some p =>
      summaryAccum pdict rest (summaryMin low p.low) (summaryMax high p.high)
        (summaryMax nbins p.bins) (ids ++ [p.id])
    | none => Except.error ("Parameter " ++ name ++ " does not exist")

/-- The data of a constructed `Summary` spectrum that the claims are
about: the ordered parameter ids and the y-axis specification (the
x axis is `Uniform(ids.length, 0, ids.length)`). -/
structure SummarySpec where
  name : String
  paramIds : List Nat
  ylow : ℚ
  yhigh : ℚ
  ybins : Nat

deriving instance DecidableEq for SummarySpec

/-- `Summary::new` (summary.rs lines 128-200): accumulate the defaults
over the parameters, apply the caller overrides, fail if any of the
three y-axis coordinates is still undefined. -/
def summaryNew (name : String) (params : List String) (pdict : PDict)
    (ylow yhigh : Option ℚ) (bins : Option Nat) : Except String SummarySpec :=
  match summaryAccum pdict params none none none [] with
  | Except.error msg => Except.error msg
  | Except.ok (low0, high0, nbins0, ids) =>
    let low := if ylow.isSome then ylow else low0
    let high := if yhigh.isSome then yhigh else high0
    let nbins := if bins.isSome then bins else nbins0
    match low with
    | none => Except.error "None of the parameters can default the axis low limit"
    | some l =>
      match high with
      | none => Except.error "None of the parameters can default the axis high limit"
      | some h =>
        match nbins with
        | none => Except.error "None of the parameters can default the bin count"
        | some nb => Except.ok (SummarySpec.mk name ids l h nb)

/-- Modelled from the spec: `optmin` (a helper of the `spectra` module
root, not among the analysed sources); the spec states PGamma's axis
defaulting "is identical to Summary's", so it is `Summary::min`'s
algorithm. -/
def optmin {α : Type} [LinearOrder α] : Option α → Option α → Option α
  | none, none => none
  | some v1, none => some v1
  | none, some v2 => some v2
  | some v1, some v2 => if v1 < v2 then some v1 else some v2

/-- Modelled from the spec: `optmax`, the mirror of `optmin`. -/
def optmax {α : Type} [LinearOrder α] : Option α → Option α → Option α
  | none, none => none
  | some v1, none => some v1
  | none, some v2 => some v2
  | some v1, some v2 => if v1 > v2 then some v1 else some v2

/-- The loop of `PGamma::make_axis_def` (pgamma.rs lines 94-130):
validate the parameters and accumulate the default axis specification
(`optmin` of lows, `optmax` of highs and of bin hints) and the ids. -/
def makeAxisDefLoop (pdict : PDict) :
    List String → Option ℚ → Option ℚ → Option Nat → List Nat →
    Except String (Option ℚ × Option ℚ × Option Nat × List Nat)
  | [], mn, mx, bn, ids => Except.ok (mn, mx, bn, ids)
  | name :: rest, mn, mx, bn, ids =>
    match plookup pdict name with
    | some p =>
      makeAxisDefLoop pdict rest (optmin mn p.low) (optmax mx p.high)
        (optmax bn p.bins) (ids ++ [p.id])
    | none => Except.error ("Parameter " ++ name ++ " is not defined")

/-- `PGamma::make_axis_def` (pgamma.rs lines 94-130). -/
def makeAxisDef (params : List String) (pdict : PDict) :
    Except String (Option ℚ × Option ℚ × Option Nat × List Nat) :=
  makeAxisDefLoop pdict params none none none []

/-- The data of a constructed `PGamma` spectrum that the claims are
about: both parameter id lists and both axis specifications. -/
structure PGammaSpec where
  name : String
  xids : List Nat
  yids : List Nat
  xlow : ℚ
  xhigh : ℚ
  xbins : Nat
  ylow : ℚ
  yhigh : ℚ
  ybins : Nat

deriving instance DecidableEq for PGammaSpec

/-- `PGamma::new` (pgamma.rs lines 139-218): derive the X axis defaults,
apply the X overrides, fail on any missing X coordinate; then the same
for Y; on success build the spectrum. -/
def pgammaNew (name : String) (xparams yparams : List String) (pdict : PDict)
    (xmin xmax : Option ℚ) (xbins : Option Nat)
    (ymin ymax : Option ℚ) (ybins : Option Nat) : Except String PGammaSpec :=
  match makeAxisDef xparams pdict with
  | Except.error s => Except.error s
  | Except.ok (xmn0, xmx0, xbn0, xp) =>
    let xmn := if xmin.isSome then xmin else xmn0
    let xmx := if xmax.isSome then xmax else xmx0
    let xbn := if xbins.isSome then xbins else xbn0
    match xmn with
    | none => Except.error "X axis minimum cannot be defaulted"
    | some xl =>
      match xmx with
      | none => Except.error "X axis maximum cannot be defaulted"
      | some xh =>
        match xbn with
        | none => Except.error "X axis bins cannot be defaulted"
        | some xb =>
          match makeAxisDef yparams pdict with
          | Except.error s => Except.error s
          | Except.ok (ymn0, ymx0, ybn0, yp) =>
            let ymn := if ymin.isSome then ymin else ymn0
            let ymx := if ymax.isSome then ymax else ymx0
            let ybn := if ybins.isSome then ybins else ybn0
            match ymn with
            | none => Except.error "Y axis minimum cannot be defaulted"
            | some yl =>
              match ymx with
              | none => Except.error "Y axis maximum cannot be defaulted"
              | some yh =>
                match ybn with
                | none => Except.error "Y axis bins cannot be defaulted"
                | some yb =>
                  Except.ok (PGammaSpec.mk name xp yp xl xh xb yl yh yb)

/-! ### Increment rules

Histogram filling is modelled as the list of fill points in fill
order. -/

/-- `Summary::increment` (summary.rs lines 48-54): for each `(x, id)` of
the enumerated parameter ids, fill bin `(x, e[id])` when the parameter is
present. -/
def summaryIncrement (paramIds : List Nat) (e : FlatEvent)
    (hist : List (ℚ × ℚ)) : List (ℚ × ℚ) :=
  paramIds.enum.foldl
    (fun h p =>
      match fget e p.2 with
      | some y => h ++ [((p.1 : ℚ), y)]
      | none => h) hist

/-- The fills `Summary::increment` performs, declaratively: one fill
`(i, value)` per index whose parameter is present in the event. -/
def summaryFills (paramIds : List Nat) (e : FlatEvent) : List (ℚ × ℚ) :=
  paramIds.enum.filterMap (fun p => (fget e p.2).map (fun y => ((p.1 : ℚ), y)))

/-- `PGamma::increment` (pgamma.rs lines 56-70): for each pair of an X
parameter and a Y parameter, fill bin `(e[xid], e[yid])` when both are
present. -/
def pgammaIncrement (xids yids : List Nat) (e : FlatEvent)
    (hist : List (ℚ × ℚ)) : List (ℚ × ℚ) :=
  xids.foldl
    (fun h xid =>
      yids.foldl
        (fun h2 yid =>
          match fget e xid, fget e yid with
          | some x, some y => h2 ++ [(x, y)]
          | _, _ => h2) h) hist

/-- The fills `PGamma::increment` performs, declaratively: one fill per
(X, Y) parameter pair with both members present. -/
def pgammaFills (xids yids : List Nat) (e : FlatEvent) : List (ℚ × ℚ) :=
  xids.flatMap (fun xid =>
    yids.filterMap (fun yid =>
      match fget e xid, fget e yid with
      | some x, some y => some (x, y)
      | _, _ => none))

theorem foldl_append_of_gen {α β : Type} (g : α → List β) :
    ∀ (l : List α) (h : List β),
      l.foldl (fun acc x => acc ++ g x) h = h ++ l.flatMap g := by
  intro l
  induction l with
  | nil => intro h; simp
  | cons x rest ih =>
    intro h
    simp only [List.foldl_cons, List.flatMap_cons, ih, List.append_assoc]

theorem bind_toList_eq_filterMap {α β : Type} (f : α → Option β) :
    ∀ (l : List α), (l.flatMap fun a => (f a).toList) = l.filterMap f := by
  intro l
  induction l with
  | nil => simp
  | cons x rest ih =>
    simp only [List.flatMap_cons, List.filterMap_cons, ih]
    cases f x <;> simp [Option.toList]

theorem length_filterMap_all_some {α β : Type} (f : α → Option β) :
    ∀ (l : List α), (∀ a ∈ l, (f a).isSome) →
      (l.filterMap f).length = l.length := by
  intro l
  induction l with
  | nil => intro _; simp
  | cons x rest ih =>
    intro hall
    have hx : (f x).isSome := hall x (List.mem_cons_self x rest)
    obtain ⟨b, hb⟩ := Option.isSome_iff_exists.mp hx
    simp only [List.filterMap_cons, hb, List.length_cons]
    rw [ih (fun a ha => hall a (List.mem_cons_of_mem x ha))]

/-- Claim C7.  `Summary::increment` appends, for each index `i` of the
ordered parameter ids in order, the fill `(i, flat[id_i])` exactly when
`flat[id_i]` is present, skipping every index whose parameter is absent:
the resulting histogram is the old one plus one fill per present index,
and a fill `(x, y)` occurs exactly for indices `i` with `x = i` and
`flat[ids[i]] = some y`. -/
theorem c7_summary_increment :
    ∀ (paramIds : List Nat) (e : FlatEvent) (hist : List (ℚ × ℚ)),
      summaryIncrement paramIds e hist = hist ++ summaryFills paramIds e ∧
      ∀ x y, ((x, y) ∈ summaryFills paramIds e ↔
        ∃ i, ∃ h : i < paramIds.length,
          x = (i : ℚ) ∧ fget e (paramIds.get ⟨i, h⟩) = some y) := by
  intro paramIds e hist
  constructor
  · unfold summaryIncrement summaryFills
    have hfun : (fun (h : List (ℚ × ℚ)) (p : Nat × Nat) =>
        match fget e p.2 with
        | some y => h ++ [((p.1 : ℚ), y)]
        | none => h) =
        fun h p => h ++ ((fget e p.2).map (fun y => ((p.1 : ℚ), y))).toList := by
      funext h p
      cases fget e p.2 <;> simp [Option.toList]
    rw [hfun, foldl_append_of_gen, bind_toList_eq_filterMap]
  · intro x y
    unfold summaryFills
    rw [List.mem_filterMap]
    constructor
    · rintro ⟨⟨i, id⟩, hmem, hf⟩
      have hget : paramIds[i]? = some id := List.mk_mem_enum_iff_getElem?.mp hmem
      obtain ⟨hlt, hval⟩ := List.getElem?_eq_some.mp hget
      cases hfg : fget e id with
      | none => rw [hfg] at hf; exact absurd hf (by simp)
      | some v =>
        rw [hfg] at hf
        rw [Option.map_some'] at hf
        obtain ⟨hx, hy⟩ := pair_some_inj hf
        refine ⟨i, hlt, hx.symm, ?_⟩
        have : paramIds.get ⟨i, hlt⟩ = id := by simpa using hval
        rw [this, hfg, hy]
    · rintro ⟨i, hlt, hx, hval⟩
      refine ⟨(i, paramIds.get ⟨i, hlt⟩), ?_, ?_⟩
      · apply List.mk_mem_enum_iff_getElem?.mpr
        apply List.getElem?_eq_some.mpr
        exact ⟨hlt, by simp⟩
      · rw [hval, Option.map_some', hx]

/-- Claim C4.  `PGamma::increment` appends 1 fill at
`(flat[x_i], flat[y_j])` for exactly each pair `(i, j)` with both
parameters present (in X-major order), and no fill for a pair with an
absent member; when all listed parameters are present this is
`m * n` fills. -/
theorem c4_pgamma_increment :
    ∀ (xids yids : List Nat) (e : FlatEvent) (hist : List (ℚ × ℚ)),
      pgammaIncrement xids yids e hist = hist ++ pgammaFills xids yids e ∧
      ((∀ id ∈ xids, (fget e id).isSome) → (∀ id ∈ yids, (fget e id).isSome) →
        (pgammaFills xids yids e).length = xids.length * yids.length) := by
  intro xids yids e hist
  constructor
  · unfold pgammaIncrement pgammaFills
    have hinner : ∀ (xid : Nat) (h : List (ℚ × ℚ)),
        yids.foldl
          (fun h2 yid =>
            match fget e xid, fget e yid with
            | some x, some y => h2 ++ [(x, y)]
            | _, _ => h2) h =
        h ++ yids.filterMap (fun yid =>
          match fget e xid, fget e yid with
          | some x, some y => some (x, y)
          | _, _ => none) := by
      intro xid h
      have hfun : (fun (h2 : List (ℚ × ℚ)) (yid : Nat) =>
          match fget e xid, fget e yid with
          | some x, some y => h2 ++ [(x, y)]
          | _, _ => h2) =
          fun h2 yid => h2 ++
            ((match fget e xid, fget e yid with
              | some x, some y => some (x, y)
              | _, _ => none) : Option (ℚ × ℚ)).toList := by
        funext h2 yid
        cases fget e xid <;> cases fget e yid <;> simp [Option.toList]
      rw [hfun, foldl_append_of_gen, bind_toList_eq_filterMap]
    have hfun2 : (fun (h : List (ℚ × ℚ)) (xid : Nat) =>
        yids.foldl
          (fun h2 yid =>
            match fget e xid, fget e yid with
            | some x, some y => h2 ++ [(x, y)]
            | _, _ => h2) h) =
        fun h xid => h ++ yids.filterMap (fun yid =>
          match fget e xid, fget e yid with
          | some x, some y => some (x, y)
          | _, _ => none) := by
      funext h xid
      exact hinner xid h
    rw [hfun2, foldl_append_of_gen]
  · intro hx hy
    unfold pgammaFills
    induction xids with
    | nil => simp
    | cons xid rest ih =>
      have hxid : (fget e xid).isSome := hx xid (List.mem_cons_self xid rest)
      obtain ⟨xv, hxv⟩ := Option.isSome_iff_exists.mp hxid
      simp only [List.flatMap_cons, List.length_append, List.length_cons]
      rw [ih (fun id hid => hx id (List.mem_cons_of_mem xid hid))]
      rw [length_filterMap_all_some _ yids ?_]
      · ring
      · intro yid hyid
        obtain ⟨yv, hyv⟩ := Option.isSome_iff_exists.mp (hy yid hyid)
        simp [hxv, hyv]

/-- The event of the spec's PGamma scenario: X parameters 1, 2 with
values 0 and 10; Y parameters 6, 7, 8 with values 100, 110, 120. -/
def exPGammaEvent : FlatEvent :=
  [(1, 0), (2, 10), (6, 100), (7, 110), (8, 120)]

/-- Witness for C4: on the spec's scenario (2 X parameters, 3 Y
parameters, all present), increment produces exactly the 6 pair fills. -/
theorem c4_witness :
    pgammaIncrement [1, 2] [6, 7, 8] exPGammaEvent [] =
      [] ++ pgammaFills [1, 2] [6, 7, 8] exPGammaEvent ∧
    (pgammaFills [1, 2] [6, 7, 8] exPGammaEvent).length = 2 * 3 :=
  ⟨(c4_pgamma_increment [1, 2] [6, 7, 8] exPGammaEvent []).1,
   (c4_pgamma_increment [1, 2] [6, 7, 8] exPGammaEvent []).2
      (by decide) (by decide)⟩

/-! ### Claim C3: axis defaulting -/

/-- Modelled from the spec: the minimum of a list of values, `none` for
the empty list ("min of parameter lows, ignoring None"). -/
def listMin {α : Type} [LinearOrder α] (l : List α) : Option α :=
  l.foldr
    (fun x acc =>
      match acc with
      | none => some x
      | some m => some (min x m)) none

/-- Modelled from the spec: the maximum of a list of values, `none` for
the empty list. -/
def listMax {α : Type} [LinearOrder α] (l : List α) : Option α :=
  l.foldr
    (fun x acc =>
      match acc with
      | none => some x
      | some m => some (max x m)) none

/-- Modelled from the spec: an explicitly supplied axis coordinate
overrides the derived default. -/
def overrideD {α : Type} (o d : Option α) : Option α :=
  if o.isSome then o else d

/-- Modelled from the spec: the axis specification algorithm — derived
low is the minimum of the parameters' default lows ignoring `None`,
derived high the maximum of the highs, derived bins the maximum of the
bin hints; caller overrides win; `none` when any coordinate is still
undefined after overrides. -/
def specAxis (ps : List Parameter) (olow ohigh : Option ℚ) (obins : Option Nat) :
    Option (ℚ × ℚ × Nat) :=
  match overrideD olow (listMin (ps.filterMap Parameter.low)),
        overrideD ohigh (listMax (ps.filterMap Parameter.high)),
        overrideD obins (listMax (ps.filterMap Parameter.bins)) with
  | some l, some h, some b => some (l, h, b)
  | _, _, _ => none

/-- Resolve every name in the dictionary, in order. -/
def resolveAll (pdict : PDict) : List String → Option (List Parameter)
  | [] => some []
  | n :: rest =>
    match plookup pdict n with
    | none => none
    | some p => (resolveAll pdict rest).map (fun ps => p :: ps)

theorem summaryMin_none_left {α : Type} [LinearOrder α] (b : Option α) :
    summaryMin none b = b := by cases b <;> rfl

theorem summaryMin_none_right {α : Type} [LinearOrder α] (a : Option α) :
    summaryMin a none = a := by cases a <;> rfl

theorem summaryMin_some_some {α : Type} [LinearOrder α] (x y : α) :
    summaryMin (some x) (some y) = some (min x y) := by
  simp only [summaryMin]
  by_cases h : x < y
  · rw [if_pos h, min_eq_left h.le]
  · rw [if_neg h, min_eq_right (le_of_not_lt h)]

theorem summaryMax_none_left {α : Type} [LinearOrder α] (b : Option α) :
    summaryMax none b = b := by cases b <;> rfl

theorem summaryMax_none_right {α : Type} [LinearOrder α] (a : Option α) :
    summaryMax a none = a := by cases a <;> rfl

theorem summaryMax_some_some {α : Type} [LinearOrder α] (x y : α) :
    summaryMax (some x) (some y) = some (max x y) := by
  simp only [summaryMax]
  by_cases h : x > y
  · rw [if_pos h, max_eq_left h.le]
  · rw [if_neg h, max_eq_right (le_of_not_lt h)]

theorem summaryMin_assoc {α : Type} [LinearOrder α] (a b c : Option α) :
    summaryMin (summaryMin a b) c = summaryMin a (summaryMin b c) := by
  cases a <;> cases b <;> cases c <;>
    simp [summaryMin_none_left, summaryMin_none_right, summaryMin_some_some,
      min_assoc]

theorem summaryMax_assoc {α : Type} [LinearOrder α] (a b c : Option α) :
    summaryMax (summaryMax a b) c = summaryMax a (summaryMax b c) := by
  cases a <;> cases b <;> cases c <;>
    simp [summaryMax_none_left, summaryMax_none_right, summaryMax_some_some,
      max_assoc]

theorem summaryMin_listMin {α : Type} [LinearOrder α] (v : α) (l : List α) :
    summaryMin (some v) (listMin l) = listMin (v :: l) := by
  have hcons : listMin (v :: l) =
      match listMin l with
      | none => some v
      | some m => some (min v m) := by
    simp [listMin]
  rw [hcons]
  cases hl : listMin l with
  | none => simp [summaryMin_none_right]
  | some m => simp [summaryMin_some_some]

theorem summaryMax_listMax {α : Type} [LinearOrder α] (v : α) (l : List α) :
    summaryMax (some v) (listMax l) = listMax (v :: l) := by
  have hcons : listMax (v :: l) =
      match listMax l with
      | none => some v
      | some m => some (max v m) := by
    simp [listMax]
  rw [hcons]
  cases hl : listMax l with
  | none => simp [summaryMax_none_right]
  | some m => simp [summaryMax_some_some]

theorem optmin_eq_summaryMin {α : Type} [LinearOrder α] (a b : Option α) :
    optmin a b = summaryMin a b := by cases a <;> cases b <;> rfl

theorem optmax_eq_summaryMax {α : Type} [LinearOrder α] (a b : Option α) :
    optmax a b = summaryMax a b := by cases a <;> cases b <;> rfl

theorem summaryAccum_ok :
    ∀ (names : List String) (pdict : PDict) (ps : List Parameter),
      resolveAll pdict names = some ps →
      ∀ (a b : Option ℚ) (c : Option Nat) (ids : List Nat),
        summaryAccum pdict names a b c ids =
          Except.ok (summaryMin a (listMin (ps.filterMap Parameter.low)),
                     summaryMax b (listMax (ps.filterMap Parameter.high)),
                     summaryMax c (listMax (ps.filterMap Parameter.bins)),
                     ids ++ ps.map Parameter.id) := by
  intro names
  induction names with
  | nil =>
    intro pdict ps hres a b c ids
    simp [resolveAll] at hres
    subst hres
    simp [summaryAccum, summaryMin_none_right, summaryMax_none_right, listMin, listMax]
  | cons name rest ih =>
    intro pdict ps hres a b c ids
    cases hp : plookup pdict name with
    | none => simp [resolveAll, hp] at hres
    | some p =>
      cases hrest : resolveAll pdict rest with
      | none => simp [resolveAll, hp, hrest] at hres
      | some ps' =>
        have hps : ps = p :: ps' := by
          simp [resolveAll, hp, hrest] at hres
          rw [← hres]
        subst hps
        have hstep : summaryAccum pdict (name :: rest) a b c ids =
            summaryAccum pdict rest (summaryMin a p.low) (summaryMax b p.high)
              (summaryMax c p.bins) (ids ++ [p.id]) := by
          simp [summaryAccum, hp]
        rw [hstep, ih pdict ps' hrest]
        have e1 : summaryMin (summaryMin a p.low)
            (listMin (ps'.filterMap Parameter.low)) =
            summaryMin a (listMin (((p :: ps').filterMap Parameter.low))) := by
          cases hpl : p.low with
          | none =>
            rw [summaryMin_none_right]
            simp [List.filterMap_cons, hpl]
          | some v =>
            rw [summaryMin_assoc, summaryMin_listMin]
            simp [List.filterMap_cons, hpl]
        have e2 : summaryMax (summaryMax b p.high)
            (listMax (ps'.filterMap Parameter.high)) =
            summaryMax b (listMax (((p :: ps').filterMap Parameter.high))) := by
          cases hph : p.high with
          | none =>
            rw [summaryMax_none_right]
            simp [List.filterMap_cons, hph]
          | some v =>
            rw [summaryMax_assoc, summaryMax_listMax]
            simp [List.filterMap_cons, hph]
        have e3 : summaryMax (summaryMax c p.bins)
            (listMax (ps'.filterMap Parameter.bins)) =
            summaryMax c (listMax (((p :: ps').filterMap Parameter.bins))) := by
          cases hpb : p.bins with
          | none =>
            rw [summaryMax_none_right]
            simp [List.filterMap_cons, hpb]
          | some v =>
            rw [summaryMax_assoc, summaryMax_listMax]
            simp [List.filterMap_cons, hpb]
        rw [e1, e2, e3]
        simp

theorem makeAxisDefLoop_ok :
    ∀ (names : List String) (pdict : PDict) (ps : List Parameter),
      resolveAll pdict names = some ps →
      ∀ (a b : Option ℚ) (c : Option Nat) (ids : List Nat),
        makeAxisDefLoop pdict names a b c ids =
          Except.ok (summaryMin a (listMin (ps.filterMap Parameter.low)),
                     summaryMax b (listMax (ps.filterMap Parameter.high)),
                     summaryMax c (listMax (ps.filterMap Parameter.bins)),
                     ids ++ ps.map Parameter.id) := by
  intro names
  induction names with
  | nil =>
    intro pdict ps hres a b c ids
    simp [resolveAll] at hres
    subst hres
    simp [makeAxisDefLoop, summaryMin_none_right, summaryMax_none_right,
      listMin, listMax]
  | cons name rest ih =>
    intro pdict ps hres a b c ids
    cases hp : plookup pdict name with
    | none => simp [resolveAll, hp] at hres
    | some p =>
      cases hrest : resolveAll pdict rest with
      | none => simp [resolveAll, hp, hrest] at hres
      | some ps' =>
        have hps : ps = p :: ps' := by
          simp [resolveAll, hp, hrest] at hres
          rw [← hres]
        subst hps
        have hstep : makeAxisDefLoop pdict (name :: rest) a b c ids =
            makeAxisDefLoop pdict rest (summaryMin a p.low) (summaryMax b p.high)
              (summaryMax c p.bins) (ids ++ [p.id]) := by
          simp [makeAxisDefLoop, hp, optmin_eq_summaryMin, optmax_eq_summaryMax]
        rw [hstep, ih pdict ps' hrest]
        have e1 : summaryMin (summaryMin a p.low)
            (listMin (ps'.filterMap Parameter.low)) =
            summaryMin a (listMin (((p :: ps').filterMap Parameter.low))) := by
          cases hpl : p.low with
          | none =>
            rw [summaryMin_none_right]
            simp [List.filterMap_cons, hpl]
          | some v =>
            rw [summaryMin_assoc, summaryMin_listMin]
            simp [List.filterMap_cons, hpl]
        have e2 : summaryMax (summaryMax b p.high)
            (listMax (ps'.filterMap Parameter.high)) =
            summaryMax b (listMax (((p :: ps').filterMap Parameter.high))) := by
          cases hph : p.high with
          | none =>
            rw [summaryMax_none_right]
            simp [List.filterMap_cons, hph]
          | some v =>
            rw [summaryMax_assoc, summaryMax_listMax]
            simp [List.filterMap_cons, hph]
        have e3 : summaryMax (summaryMax c p.bins)
            (listMax (ps'.filterMap Parameter.bins)) =
            summaryMax c (listMax (((p :: ps').filterMap Parameter.bins))) := by
          cases hpb : p.bins with
          | none =>
            rw [summaryMax_none_right]
            simp [List.filterMap_cons, hpb]
          | some v =>
            rw [summaryMax_assoc, summaryMax_listMax]
            simp [List.filterMap_cons, hpb]
        rw [e1, e2, e3]
        simp

theorem summaryNew_axis (nm : String) (names : List String) (pdict : PDict)
    (ps : List Parameter) (yl yh : Option ℚ) (bn : Option Nat)
    (hres : resolveAll pdict names = some ps) :
    (summaryNew nm names pdict yl yh bn).toOption.map
        (fun sp => (sp.ylow, sp.yhigh, sp.ybins)) =
      specAxis ps yl yh bn := by
  unfold summaryNew
  rw [summaryAccum_ok names pdict ps hres none none none []]
  simp only [summaryMin_none_left, summaryMax_none_left]
  unfold specAxis overrideD
  cases hA : (if yl.isSome then yl else listMin (ps.filterMap Parameter.low)) <;>
  cases hB : (if yh.isSome then yh else listMax (ps.filterMap Parameter.high)) <;>
  cases hC : (if bn.isSome then bn else listMax (ps.filterMap Parameter.bins)) <;>
    simp [hA, hB, hC, Except.toOption]

theorem pgammaNew_axes (nm : String) (xnames ynames : List String) (pdict : PDict)
    (xs ys : List Parameter) (xm xM : Option ℚ) (xb : Option Nat)
    (ym yM : Option ℚ) (yb : Option Nat)
    (hx : resolveAll pdict xnames = some xs)
    (hy : resolveAll pdict ynames = some ys) :
    (pgammaNew nm xnames ynames pdict xm xM xb ym yM yb).toOption.map
        (fun sp => ((sp.xlow, sp.xhigh, sp.xbins), (sp.ylow, sp.yhigh, sp.ybins))) =
      (match specAxis xs xm xM xb, specAxis ys ym yM yb with
       | some ax, some ay => some (ax, ay)
       | _, _ => none) := by
  unfold pgammaNew makeAxisDef
  rw [makeAxisDefLoop_ok xnames pdict xs hx none none none [],
      makeAxisDefLoop_ok ynames pdict ys hy none none none []]
  simp only [summaryMin_none_left, summaryMax_none_left]
  unfold specAxis overrideD
  cases hA : (if xm.isSome then xm else listMin (xs.filterMap Parameter.low)) <;>
  cases hB : (if xM.isSome then xM else listMax (xs.filterMap Parameter.high)) <;>
  cases hC : (if xb.isSome then xb else listMax (xs.filterMap Parameter.bins)) <;>
  cases hD : (if ym.isSome then ym else listMin (ys.filterMap Parameter.low)) <;>
  cases hE : (if yM.isSome then yM else listMax (ys.filterMap Parameter.high)) <;>
  cases hF : (if yb.isSome then yb else listMax (ys.filterMap Parameter.bins)) <;>
    simp [hA, hB, hC, hD, hE, hF, Except.toOption]

/-- Claim C3.  `Summary::new` and `PGamma::new` derive each defaulted
axis coordinate as: low = minimum of the listed parameters' default lows
ignoring `None`, high = maximum of the default highs ignoring `None`,
bins = maximum of the default bin hints ignoring `None`; an explicitly
supplied coordinate overrides the derived default; construction errors
exactly when one of the three coordinates is still `None` after
overrides — for `PGamma` independently for the X and the Y parameter
list. -/
theorem c3_axis_defaulting :
    (∀ (nm : String) (names : List String) (pdict : PDict) (ps : List Parameter)
        (yl yh : Option ℚ) (bn : Option Nat),
      resolveAll pdict names = some ps →
      (summaryNew nm names pdict yl yh bn).toOption.map
          (fun sp => (sp.ylow, sp.yhigh, sp.ybins)) = specAxis ps yl yh bn) ∧
    (∀ (nm : String) (xnames ynames : List String) (pdict : PDict)
        (xs ys : List Parameter) (xm xM : Option ℚ) (xb : Option Nat)
        (ym yM : Option ℚ) (yb : Option Nat),
      resolveAll pdict xnames = some xs → resolveAll pdict ynames = some ys →
      (pgammaNew nm xnames ynames pdict xm xM xb ym yM yb).toOption.map
          (fun sp => ((sp.xlow, sp.xhigh, sp.xbins), (sp.ylow, sp.yhigh, sp.ybins))) =
        (match specAxis xs xm xM xb, specAxis ys ym yM yb with
         | some ax, some ay => some (ax, ay)
         | _, _ => none)) :=
  ⟨fun nm names pdict ps yl yh bn hres =>
      summaryNew_axis nm names pdict ps yl yh bn hres,
   fun nm xn yn pdict xs ys xm xM xb ym yM yb hx hy =>
      pgammaNew_axes nm xn yn pdict xs ys xm xM xb ym yM yb hx hy⟩

/-- An example dictionary: two parameters with full metadata and one with
none. -/
def exPDict : PDict :=
  [("a", Parameter.mk 1 (some 0) (some 1023) (some 1024)),
   ("b", Parameter.mk 2 (some (-5)) (some 100) (some 512)),
   ("c", Parameter.mk 3 none none none)]

/-- Witness for C3: a defaulted summary axis over two parameters, a
failing summary over a metadata-less parameter, and a defaulted PGamma
pair of axes. -/
theorem c3_witness :
    (summaryNew "s" ["a", "b"] exPDict none none none).toOption.map
        (fun sp => (sp.ylow, sp.yhigh, sp.ybins)) =
      specAxis [Parameter.mk 1 (some 0) (some 1023) (some 1024),
                Parameter.mk 2 (some (-5)) (some 100) (some 512)] none none none ∧
    (summaryNew "s" ["c"] exPDict none none none).toOption.map
        (fun sp => (sp.ylow, sp.yhigh, sp.ybins)) =
      specAxis [Parameter.mk 3 none none none] none none none ∧
    (pgammaNew "g" ["a"] ["b"] exPDict none none none none none none).toOption.map
        (fun sp => ((sp.xlow, sp.xhigh, sp.xbins), (sp.ylow, sp.yhigh, sp.ybins))) =
      (match specAxis [Parameter.mk 1 (some 0) (some 1023) (some 1024)] none none none,
             specAxis [Parameter.mk 2 (some (-5)) (some 100) (some 512)] none none none with
       | some ax, some ay => some (ax, ay)
       | _, _ => none) :=
  ⟨c3_axis_defaulting.1 "s" ["a", "b"] exPDict _ none none none (by rfl),
   c3_axis_defaulting.1 "s" ["c"] exPDict _ none none none (by rfl),
   c3_axis_defaulting.2 "g" ["a"] ["b"] exPDict _ _ none none none none none none
     (by rfl) (by rfl)⟩

/-! ### Ring items

`RingItem` (ring_items/mod.rs): a 12-byte header of three `u32` fields
(`size`, `type_id`, `body_header_size`) and a byte-soup payload.  Machine
integers are modelled as naturals with an explicit `% 2 ^ 32` wherever
the source performs `u32` arithmetic (the `size` update of
`RingItem::add` is the only such place); byte sequences are lists of
naturals; native endian is little-endian on the target, modelled
explicitly. -/

/-- A raw ring item (ring_items/mod.rs lines 38-43).  The three header
fields are `u32`: values below `2 ^ 32`, with the arithmetic on `size`
wrapping accordingly. -/
structure RingItem where
  size : Nat
  type_id : Nat
  body_header_size : Nat
  payload : List Nat

deriving instance DecidableEq for RingItem

/-- A decoded body header (ring_items/mod.rs lines 44-49). -/
structure BodyHeader where
  timestamp : Nat
  source_id : Nat
  barrier_type : Nat

deriving instance DecidableEq for BodyHeader

/-- `RingItem::new` (lines 99-106): `size` = 12 (three `u32`),
`body_header_size` = 4 (the size of a `u32`), empty payload. -/
def RingItem.new (t : Nat) : RingItem := RingItem.mk 12 t 4 []

/-- `RingItem::add` (lines 156-171): push the raw bytes of the added item
onto the payload and grow `size` by `size_of::<T>()`; modelled on the
byte representation of the added value.  The size update
`self.size = self.size + mem::size_of::<T>() as u32` (line 169) is `u32`
arithmetic, so it wraps at `2 ^ 32`. -/
def RingItem.addBytes (r : RingItem) (bytes : List Nat) : RingItem :=
  RingItem.mk ((r.size + bytes.length) % 2 ^ 32) r.type_id r.body_header_size
    (r.payload ++ bytes)

/-- `RingItem::add_byte_vec` (lines 172-176): `add` each byte of the
vector in turn. -/
def RingItem.addByteVec (r : RingItem) (v : List Nat) : RingItem :=
  v.foldl (fun acc b => acc.addBytes [b]) r

/-- Little-endian byte encoding of a `w`-byte machine integer (the
`to_ne_bytes` of the little-endian target). -/
def leBytes : Nat → Nat → List Nat
  | 0, _ => []
  | w + 1, n => (n % 256) :: leBytes w (n / 256)

/-- Little-endian decoding of a byte list (`from_ne_bytes`). -/
def leWord (bytes : List Nat) : Nat :=
  bytes.foldr (fun b acc => b + 256 * acc) 0

/-- `RingItem::new_with_body_header` (lines 109-118): a fresh item whose
`body_header_size` is `body_header_size() + size_of::<u32>() = 20` with
the timestamp (`u64`), source id and barrier type (`u32`) `add`ed to the
payload. -/
def RingItem.newWithBodyHeader (t stamp source barrier : Nat) : RingItem :=
  let r0 := RingItem.new t
  let r1 := RingItem.mk r0.size r0.type_id 20 r0.payload
  ((r1.addBytes (leBytes 8 stamp)).addBytes (leBytes 4 source)).addBytes
    (leBytes 4 barrier)

/-- `RingItem::has_body_header` (lines 126-128): the `body_header_size`
field exceeds the size of a `u32`. -/
def RingItem.hasBodyHeader (r : RingItem) : Bool :=
  decide (4 < r.body_header_size)

/-- `RingItem::get_bodyheader` (lines 131-143): when a body header is
present, decode the timestamp from payload bytes 0..8, the source id from
8..12 and the barrier type from 12..16; `Except.error` models the panic
of the slice `try_into().unwrap()` when fewer than 16 payload bytes
exist; `Except.ok none` when no body header is present. -/
def RingItem.get_bodyheader (r : RingItem) : Except Unit (Option BodyHeader) :=
  if r.hasBodyHeader then
    if 16 ≤ r.payload.length then
      Except.ok (some (BodyHeader.mk
        (leWord (r.payload.take 8))
        (leWord ((r.payload.drop 8).take 4))
        (leWord ((r.payload.drop 12).take 4))))
    else Except.error ()
  else Except.ok none

/-- Claim C8.  `get_bodyheader` returns `Some` of the body header decoded
from the first 16 payload bytes (timestamp as a `u64`, then source id and
barrier type as `u32`) exactly when `body_header_size > 4`, and `None`
otherwise. -/
theorem c8_get_bodyheader :
    ∀ (r : RingItem),
      (4 < r.body_header_size → 16 ≤ r.payload.length →
        r.get_bodyheader = Except.ok (some (BodyHeader.mk
          (leWord (r.payload.take 8))
          (leWord ((r.payload.drop 8).take 4))
          (leWord ((r.payload.drop 12).take 4))))) ∧
      (¬ 4 < r.body_header_size → r.get_bodyheader = Except.ok none) := by
  intro r
  constructor
  · intro h1 h2
    simp [RingItem.get_bodyheader, RingItem.hasBodyHeader, h1, h2]
  · intro h1
    simp [RingItem.get_bodyheader, RingItem.hasBodyHeader, h1]

/-- Witness for C8: an item built by `new_with_body_header` decodes to its
body header; an item built by `new` has none. -/
theorem c8_witness :
    (RingItem.newWithBodyHeader 1234 7 5 0).get_bodyheader =
      Except.ok (some (BodyHeader.mk 7 5 0)) ∧
    (RingItem.new 1234).get_bodyheader = Except.ok none := by
  constructor
  · have h := (c8_get_bodyheader (RingItem.newWithBodyHeader 1234 7 5 0)).1
      (by decide) (by decide)
    rw [h]
    rfl
  · exact (c8_get_bodyheader (RingItem.new 1234)).2 (by decide)

/-! ### Claim C10: the size field tracks the serialized length -/

/-- A payload-building operation: `add` of an item with the given byte
representation, or `add_byte_vec` of a byte vector. -/
inductive ROp where
  | add (bytes : List Nat) : ROp
  | addVec (bytes : List Nat) : ROp

/-- Apply a sequence of payload-building operations. -/
def applyOps (r : RingItem) : List ROp → RingItem
  | [] => r
  | ROp.add bs :: rest => applyOps (r.addBytes bs) rest
  | ROp.addVec bs :: rest => applyOps (r.addByteVec bs) rest

/-- The header invariant as the wrapping `u32` arithmetic of
`RingItem::add` maintains it: the size field equals the 12 header bytes
plus the payload length, reduced modulo `2 ^ 32`. -/
def sizeInv (r : RingItem) : Prop :=
  r.size = (12 + r.payload.length) % 2 ^ 32

theorem sizeInv_addBytes {r : RingItem} (h : sizeInv r) (bs : List Nat) :
    sizeInv (r.addBytes bs) := by
  unfold sizeInv at h ⊢
  unfold RingItem.addBytes
  simp only [h, List.length_append]
  rw [Nat.mod_add_mod, Nat.add_assoc]

theorem sizeInv_addByteVec :
    ∀ (v : List Nat) (r : RingItem), sizeInv r → sizeInv (r.addByteVec v) := by
  intro v
  induction v with
  | nil => intro r h; exact h
  | cons b rest ih =>
    intro r h
    unfold RingItem.addByteVec
    simp only [List.foldl_cons]
    exact ih (r.addBytes [b]) (sizeInv_addBytes h [b])

theorem sizeInv_applyOps :
    ∀ (ops : List ROp) (r : RingItem), sizeInv r → sizeInv (applyOps r ops) := by
  intro ops
  induction ops with
  | nil => intro r h; exact h
  | cons op rest ih =>
    intro r h
    cases op with
    | add bs => exact ih (r.addBytes bs) (sizeInv_addBytes h bs)
    | addVec bs => exact ih (r.addByteVec bs) (sizeInv_addByteVec bs r h)

theorem length_leBytes : ∀ (w n : Nat), (leBytes w n).length = w := by
  intro w
  induction w with
  | zero => intro n; rfl
  | succ w ih => intro n; simp [leBytes, ih]

theorem applyOps_add_cons (r : RingItem) (bs : List Nat) (rest : List ROp) :
    applyOps r (ROp.add bs :: rest) = applyOps (r.addBytes bs) rest := rfl

theorem applyOps_nil (r : RingItem) : applyOps r [] = r := rfl

theorem addBytes_size (r : RingItem) (bytes : List Nat) :
    (r.addBytes bytes).size = (r.size + bytes.length) % 2 ^ 32 := rfl

theorem addBytes_payload (r : RingItem) (bytes : List Nat) :
    (r.addBytes bytes).payload = r.payload ++ bytes := rfl

/-- Counterexample to C10 as stated: a single `add` of `2 ^ 32` bytes to
a fresh item wraps the `u32` size field (it ends at 12 again), so the
size field no longer equals `12 + payload.len()`. -/
theorem c10_counterexample :
    ¬ ((applyOps (RingItem.new 0) [ROp.add (List.replicate (2 ^ 32) 0)]).size =
      12 + (applyOps (RingItem.new 0)
        [ROp.add (List.replicate (2 ^ 32) 0)]).payload.length) := by
  intro h
  rw [applyOps_add_cons, applyOps_nil, addBytes_size, addBytes_payload] at h
  rw [show (RingItem.new 0).payload = [] from rfl,
      show (RingItem.new 0).size = 12 from rfl] at h
  rw [List.nil_append, List.length_replicate] at h
  rw [Nat.add_mod_right] at h
  norm_num at h

/-- Claim C10 as amended.  Any `RingItem` built by `new` or
`new_with_body_header` and extended by any sequence of `add` and
`add_byte_vec` calls satisfies `size = (12 + payload.len()) % 2 ^ 32`
(the wrapping `u32` arithmetic of `RingItem::add`); in particular the
header size field equals the total serialized length `12 + payload.len()`
whenever that length is below `2 ^ 32`. -/
theorem c10_size_mod_invariant :
    (∀ (t : Nat) (ops : List ROp),
      (applyOps (RingItem.new t) ops).size =
        (12 + (applyOps (RingItem.new t) ops).payload.length) % 2 ^ 32) ∧
    (∀ (t stamp source barrier : Nat) (ops : List ROp),
      (applyOps (RingItem.newWithBodyHeader t stamp source barrier) ops).size =
        (12 + (applyOps (RingItem.newWithBodyHeader t stamp source barrier)
          ops).payload.length) % 2 ^ 32) ∧
    (∀ (t : Nat) (ops : List ROp),
      12 + (applyOps (RingItem.new t) ops).payload.length < 2 ^ 32 →
      (applyOps (RingItem.new t) ops).size =
        12 + (applyOps (RingItem.new t) ops).payload.length) ∧
    (∀ (t stamp source barrier : Nat) (ops : List ROp),
      12 + (applyOps (RingItem.newWithBodyHeader t stamp source barrier)
          ops).payload.length < 2 ^ 32 →
      (applyOps (RingItem.newWithBodyHeader t stamp source barrier) ops).size =
        12 + (applyOps (RingItem.newWithBodyHeader t stamp source barrier)
          ops).payload.length) := by
  have hnew : ∀ (t : Nat) (ops : List ROp),
      sizeInv (applyOps (RingItem.new t) ops) := by
    intro t ops
    refine sizeInv_applyOps ops (RingItem.new t) ?_
    unfold sizeInv RingItem.new
    norm_num
  have hnewbh : ∀ (t stamp source barrier : Nat) (ops : List ROp),
      sizeInv (applyOps (RingItem.newWithBodyHeader t stamp source barrier) ops) := by
    intro t stamp source barrier ops
    refine sizeInv_applyOps ops _ ?_
    unfold sizeInv RingItem.newWithBodyHeader
    simp [RingItem.addBytes, RingItem.new, length_leBytes]
  refine ⟨fun t ops => hnew t ops, fun t st src ba ops => hnewbh t st src ba ops,
    ?_, ?_⟩
  · intro t ops hlt
    rw [hnew t ops]
    exact Nat.mod_eq_of_lt hlt
  · intro t st src ba ops hlt
    rw [hnewbh t st src ba ops]
    exact Nat.mod_eq_of_lt hlt

/-- Witness for the amended C10: a concrete short item built by each
constructor and extended by an `add` and an `add_byte_vec` keeps
`size = 12 + payload.len()` (no wrap occurs). -/
theorem c10_witness :
    (applyOps (RingItem.new 1) [ROp.add [9, 9], ROp.addVec [1, 2, 3]]).size =
      12 + (applyOps (RingItem.new 1)
        [ROp.add [9, 9], ROp.addVec [1, 2, 3]]).payload.length ∧
    (applyOps (RingItem.newWithBodyHeader 1 7 5 0) [ROp.addVec [1, 2]]).size =
      12 + (applyOps (RingItem.newWithBodyHeader 1 7 5 0)
        [ROp.addVec [1, 2]]).payload.length :=
  ⟨c10_size_mod_invariant.2.2.1 1 [ROp.add [9, 9], ROp.addVec [1, 2, 3]]
      (by decide),
   c10_size_mod_invariant.2.2.2 1 7 5 0 [ROp.addVec [1, 2]] (by decide)⟩

end Rustogrammer
